import Mathlib

/-!
# constexpr-to-string: `to_string_t<N, base>`

A shallow embedding of `src/to_string.hpp`.  The template takes an integral
constant `N` of any fixed-width integral type and an `unsigned int` base; a
lambda in the array bound computes the size of `buf`, and the constructor
fills `buf` from the back.

C++ arithmetic is modelled on `Int` with the conversions made explicit:
`-N` is evaluated in the promoted type of `N`, `n /= base` and `n % base` in
the common type of `n` and `unsigned int`.  `int` is 32 bits wide.
Undefined behaviour (signed overflow, division by zero, an index outside the
string literal, a store outside `buf`) is a `Fault`.  The loops carry fuel.
A second copy of the loops and of the constructor records the divisions,
subscripts and stores it performs, and is proved to return the same result.
-/

namespace ConstexprToString

/-! ## Integral types -/

/-- Widths of the fixed-width integral types. -/
inductive Width where
  | w8 | w16 | w32 | w64
  deriving DecidableEq, Repr

/-- Number of bits of a width. -/
def Width.bits : Width → Nat
  | .w8 => 8
  | .w16 => 16
  | .w32 => 32
  | .w64 => 64

/-- An integral type: its width and whether it is signed. -/
structure IntType where
  width : Width
  isSigned : Bool
  deriving DecidableEq, Repr

/-- Smallest value of the type. -/
def IntType.minVal (t : IntType) : Int :=
  if t.isSigned then -(2 ^ (t.width.bits - 1)) else 0

/-- Largest value of the type. -/
def IntType.maxVal (t : IntType) : Int :=
  if t.isSigned then 2 ^ (t.width.bits - 1) - 1 else 2 ^ t.width.bits - 1

/-- The value `v` is representable in the type. -/
def IntType.holds (t : IntType) (v : Int) : Prop :=
  t.minVal ≤ v ∧ v ≤ t.maxVal

instance (t : IntType) (v : Int) : Decidable (t.holds v) := by
  unfold IntType.holds
  exact inferInstance

/-- The type `int`. -/
def int32 : IntType := ⟨.w32, true⟩

/-- The type `unsigned int`, the type of the template parameter `base`. -/
def uint32 : IntType := ⟨.w32, false⟩

/-- The type `signed char` (`int8_t`). -/
def int8 : IntType := ⟨.w8, true⟩

/-- The type `short` (`int16_t`). -/
def int16 : IntType := ⟨.w16, true⟩

/-- The type `long long` (`int64_t`). -/
def int64 : IntType := ⟨.w64, true⟩

/-- The type `unsigned long long` (`uint64_t`). -/
def uint64 : IntType := ⟨.w64, false⟩

/-- Integral promotion: types narrower than `int` become `int`. -/
def promote (t : IntType) : IntType :=
  match t.width with
  | .w8 => int32
  | .w16 => int32
  | _ => t

/-- Usual arithmetic conversions of a promoted type with `unsigned int`:
`int` and `unsigned int` give `unsigned int`, a 64-bit type wins. -/
def common (t : IntType) : IntType :=
  match t.width with
  | .w64 => t
  | _ => uint32

/-- Conversion of a mathematical integer to the type, modulo `2 ^ bits`. -/
def wrapTo (t : IntType) (x : Int) : Int :=
  let r := x % (2 ^ t.width.bits : Int)
  if t.isSigned ∧ (2 ^ (t.width.bits - 1) : Int) ≤ r then r - 2 ^ t.width.bits else r

/-! ## Faults and the treatment of signed overflow -/

/-- Ways in which the evaluation can go wrong. -/
inductive Fault where
  | signedOverflow
  | divByZero
  | alphabetOutOfRange
  | bufferOutOfRange
  | outOfFuel
  deriving DecidableEq, Repr

/-- What an overflowing signed negation does.  `trap` is the language rule and
the behaviour of the template: the negation is undefined, it sits in the bound
of `buf`, which must be a constant expression, so the instantiation is rejected.
`wrap` is two's-complement wrapping in the type of the expression, what the
negation would yield if it were evaluated at run time on common hardware. -/
inductive Overflow where
  | trap
  | wrap
  deriving DecidableEq, Repr

/-- The expression `-x` evaluated in the (promoted) type `t`. -/
def negate (p : Overflow) (t : IntType) (x : Int) : Except Fault Int :=
  if t.holds (-x) then .ok (-x)
  else if t.isSigned then
    match p with
    | .trap => .error .signedOverflow
    | .wrap => .ok (wrapTo t (-x))
  else .ok (wrapTo t (-x))

/-- The initialiser `N < 0 ? -N : N` of the loop variable `n`, whose type is
the promoted type of `N`. -/
def magnitude (p : Overflow) (t : IntType) (N : Int) : Except Fault Int :=
  if N < 0 then negate p (promote t) N else .ok N

/-- The statement `n /= base` for `n` of the promoted type `t`: both operands
are converted to the common type, the quotient truncates toward zero and is
converted back to `t`. -/
def divBase (t : IntType) (n : Int) (base : Nat) : Except Fault Int :=
  let b := wrapTo (common t) base
  if b = 0 then .error .divByZero
  else .ok (wrapTo t (Int.tdiv (wrapTo (common t) n) b))

/-- The expression `n % base` for `n` of the promoted type `t`, in the common
type. -/
def modBase (t : IntType) (n : Int) (base : Nat) : Except Fault Int :=
  let b := wrapTo (common t) base
  if b = 0 then .error .divByZero
  else .ok (Int.tmod (wrapTo (common t) n) b)

/-! ## The size lambda (lines 22-26) -/

/-- The loop `for (...; n; len++, n /= base);` with `len` an `unsigned int`. -/
def lenLoop (t : IntType) (base : Nat) : Nat → Int → Nat → Except Fault Nat
  | 0, _, _ => .error .outOfFuel
  | fuel + 1, n, len =>
    if n = 0 then .ok len
    else
      match divBase t n base with
      | .error e => .error e
      | .ok n' => lenLoop t base fuel n' ((len + 1) % 2 ^ 32)

/-- The lambda in the bound of `buf`: `len` starts at 1 or 2 and is
incremented once per division. -/
def buf_size (p : Overflow) (fuel : Nat) (t : IntType) (N : Int) (base : Nat) :
    Except Fault Nat :=
  match magnitude p t N with
  | .error e => .error e
  | .ok n => lenLoop (promote t) base fuel n (if 0 ≤ N then 1 else 2)

/-! ## The constructor (lines 31-41) -/

/-- The string literal `"0123456789ABCDEF"` as an array of 17 `char`. -/
def alphabet : List Char :=
  ['0', '1', '2', '3', '4', '5', '6', '7', '8', '9', 'A', 'B', 'C', 'D', 'E', 'F',
    Char.ofNat 0]

/-- Subscripting the literal: defined for the 17 elements of the array. -/
def alphabetAt (i : Int) : Except Fault Char :=
  if 0 ≤ i ∧ i < 17 then .ok (alphabet.getD i.toNat (Char.ofNat 0))
  else .error .alphabetOutOfRange

/-- The array `buf` (a cell is `none` until it is written) and the offset of
`ptr` from the start of `buf`. -/
structure Cursor where
  buf : List (Option Char)
  ptr : Nat
  deriving DecidableEq, Repr

/-- The statement `*--ptr = c`. -/
def store (s : Cursor) (c : Char) : Except Fault Cursor :=
  if s.ptr = 0 ∨ s.buf.length < s.ptr then .error .bufferOutOfRange
  else .ok ⟨s.buf.set (s.ptr - 1) (some c), s.ptr - 1⟩

/-- The loop `for (...; n; n /= base) *--ptr = "0123456789ABCDEF"[n % base];`. -/
def fillLoop (t : IntType) (base : Nat) : Nat → Int → Cursor → Except Fault Cursor
  | 0, _, _ => .error .outOfFuel
  | fuel + 1, n, s =>
    if n = 0 then .ok s
    else
      match modBase t n base with
      | .error e => .error e
      | .ok i =>
        match alphabetAt i with
        | .error e => .error e
        | .ok c =>
          match store s c with
          | .error e => .error e
          | .ok s' =>
            match divBase t n base with
            | .error e => .error e
            | .ok n' => fillLoop t base fuel n' s'

/-- The object `to_string_t<N, base>()`: `buf` gets the size computed by the
lambda, the constructor recomputes `len`, writes the terminator, the digits
and the sign.  The result is the final `buf` with the final `ptr`. -/
def to_string_t (p : Overflow) (fuel : Nat) (t : IntType) (N : Int) (base : Nat) :
    Except Fault Cursor :=
  match buf_size p fuel t N base with
  | .error e => .error e
  | .ok cap =>
    match buf_size p fuel t N base with
    | .error e => .error e
    | .ok len =>
      match store ⟨List.replicate cap none, len⟩ (Char.ofNat 0) with
      | .error e => .error e
      | .ok s1 =>
        match magnitude p t N with
        | .error e => .error e
        | .ok n =>
          match fillLoop (promote t) base fuel n s1 with
          | .error e => .error e
          | .ok s2 => if N < 0 then store s2 '-' else .ok s2

/-- Reading a C string: the characters before the first NUL.  There is no
string when an unwritten cell or the end of the array comes first. -/
def cstr : List (Option Char) → Option (List Char)
  | [] => none
  | none :: _ => none
  | some c :: rest =>
    if c = Char.ofNat 0 then some []
    else (cstr rest).map (fun s => c :: s)

/-- The text seen through `operator const char *`. -/
def to_string (p : Overflow) (fuel : Nat) (t : IntType) (N : Int) (base : Nat) :
    Except Fault (Option (List Char)) :=
  match to_string_t p fuel t N base with
  | .error e => .error e
  | .ok s => .ok (cstr s.buf)

/-! ## The same evaluation with its steps recorded -/

/-- A step of the evaluation that the properties speak about: a division
`n /= base` taking `n` to `q`, a subscript of the literal, a store into `buf`. -/
inductive Event where
  | divide (n q : Int)
  | lookup (i : Int)
  | write (offset : Nat) (c : Char)
  deriving DecidableEq, Repr

/-- The loop of the size computation, with the divisions it performs. -/
def lenLoopT (t : IntType) (base : Nat) : Nat → Int → Nat → List Event × Except Fault Nat
  | 0, _, _ => ([], .error .outOfFuel)
  | fuel + 1, n, len =>
    if n = 0 then ([], .ok len)
    else
      match divBase t n base with
      | .error e => ([], .error e)
      | .ok n' =>
        ((Event.divide n n') :: (lenLoopT t base fuel n' ((len + 1) % 2 ^ 32)).1,
          (lenLoopT t base fuel n' ((len + 1) % 2 ^ 32)).2)

/-- The size computation (lines 23-25 and 32-33) with its divisions. -/
def buf_size_trace (p : Overflow) (fuel : Nat) (t : IntType) (N : Int) (base : Nat) :
    List Event × Except Fault Nat :=
  match magnitude p t N with
  | .error e => ([], .error e)
  | .ok n => lenLoopT (promote t) base fuel n (if 0 ≤ N then 1 else 2)

/-- The fill loop with its lookups, stores and divisions; a lookup is recorded
before the subscript is checked. -/
def fillLoopT (t : IntType) (base : Nat) :
    Nat → Int → Cursor → List Event × Except Fault Cursor
  | 0, _, _ => ([], .error .outOfFuel)
  | fuel + 1, n, s =>
    if n = 0 then ([], .ok s)
    else
      match modBase t n base with
      | .error e => ([], .error e)
      | .ok i =>
        match alphabetAt i with
        | .error e => ([Event.lookup i], .error e)
        | .ok c =>
          match store s c with
          | .error e => ([Event.lookup i], .error e)
          | .ok s' =>
            match divBase t n base with
            | .error e => ([Event.lookup i, Event.write s'.ptr c], .error e)
            | .ok n' =>
              (Event.lookup i :: Event.write s'.ptr c :: Event.divide n n'
                  :: (fillLoopT t base fuel n' s').1,
                (fillLoopT t base fuel n' s').2)

/-- The constructor with the steps of its body: the divisions of lines 32-33,
the store of the terminator, the steps of the fill loop and the store of the
sign. -/
def to_string_t_trace (p : Overflow) (fuel : Nat) (t : IntType) (N : Int) (base : Nat) :
    List Event × Except Fault Cursor :=
  match buf_size p fuel t N base with
  | .error e => ([], .error e)
  | .ok cap =>
    match buf_size_trace p fuel t N base with
    | (ev, .error e) => (ev, .error e)
    | (ev, .ok len) =>
      match store ⟨List.replicate cap none, len⟩ (Char.ofNat 0) with
      | .error e => (ev, .error e)
      | .ok s1 =>
        match magnitude p t N with
        | .error e => (ev ++ [Event.write s1.ptr (Char.ofNat 0)], .error e)
        | .ok n =>
          match fillLoopT (promote t) base fuel n s1 with
          | (fv, .error e) => (ev ++ Event.write s1.ptr (Char.ofNat 0) :: fv, .error e)
          | (fv, .ok s2) =>
            if N < 0 then
              match store s2 '-' with
              | .error e => (ev ++ Event.write s1.ptr (Char.ofNat 0) :: fv, .error e)
              | .ok s3 =>
                (ev ++ Event.write s1.ptr (Char.ofNat 0) :: fv ++ [Event.write s3.ptr '-'],
                  .ok s3)
            else (ev ++ Event.write s1.ptr (Char.ofNat 0) :: fv, .ok s2)

/-- Offsets of the stores, in the order in which they happen. -/
def writeOffsets : List Event → List Nat
  | [] => []
  | Event.write o _ :: rest => o :: writeOffsets rest
  | _ :: rest => writeOffsets rest

/-- Subscripts used on the literal, in order. -/
def lookups : List Event → List Int
  | [] => []
  | Event.lookup i :: rest => i :: lookups rest
  | _ :: rest => lookups rest

/-- Divisions `(n, q)`, in order. -/
def divisions : List Event → List (Int × Int)
  | [] => []
  | Event.divide n q :: rest => (n, q) :: divisions rest
  | _ :: rest => divisions rest

/-! ## Reference notions used to state the properties -/

/-- The character at index `d` of `"0123456789ABCDEF"`. -/
def digitChar (d : Nat) : Char :=
  "0123456789ABCDEF".toList.getD d '?'

/-- The base-`b` digits of `m`, most significant first, as characters. -/
def numeral (b m : Nat) : List Char :=
  (Nat.digits b m).reverse.map digitChar

/-- The optional sign followed by the digits of the magnitude. -/
def signedNumeral (b : Nat) (v : Int) : List Char :=
  (if v < 0 then ['-'] else []) ++ numeral b v.natAbs

/-- The bytes of a buffer holding `text` and one terminating NUL. -/
def terminated (text : List Char) : List (Option Char) :=
  (text ++ [Char.ofNat 0]).map some

/-- The digit string of a magnitude, with `"0"` for zero. -/
def digitString (b m : Nat) : List Char :=
  if m = 0 then ['0'] else numeral b m

/-- Value of a digit character `'0'`-`'9'`, `'A'`-`'F'`. -/
def digitValue (c : Char) : Option Nat :=
  if '0'.toNat ≤ c.toNat ∧ c.toNat ≤ '9'.toNat then some (c.toNat - '0'.toNat)
  else if 'A'.toNat ≤ c.toNat ∧ c.toNat ≤ 'F'.toNat then some (c.toNat - 'A'.toNat + 10)
  else none

/-- Reading digits in base `b`, most significant first, onto an accumulator;
a character that is not a digit of the base is refused. -/
def parseFrom (b : Nat) : Nat → List Char → Option Nat
  | acc, [] => some acc
  | acc, c :: cs =>
    match digitValue c with
    | none => none
    | some d => if d < b then parseFrom b (acc * b + d) cs else none

/-- The value of a base-`b` numeral.  A numeral has at least one digit: the
empty text is refused. -/
def parseNumeral (b : Nat) (text : List Char) : Option Nat :=
  match text with
  | [] => none
  | c :: cs => parseFrom b 0 (c :: cs)

/-- The negation `-N` is representable where it is evaluated, or is not
evaluated at all. -/
def negationFits (t : IntType) (N : Int) : Prop :=
  0 ≤ N ∨ (promote t).holds (-N)

instance (t : IntType) (N : Int) : Decidable (negationFits t N) := by
  unfold negationFits
  exact inferInstance

end ConstexprToString

namespace ConstexprToString

/-! ## Arithmetic of the conversions -/

theorem wrapTo_of_holds (t : IntType) (x : Int) (h : t.holds x) : wrapTo t x = x := by
  obtain ⟨w, sg⟩ := t
  cases w <;> cases sg <;>
    simp only [IntType.holds, IntType.minVal, IntType.maxVal, Width.bits] at h <;>
    simp only [wrapTo, Width.bits] <;>
    norm_num at h ⊢ <;> omega

theorem holds_promote_of_nat (t : IntType) (m k : Nat) (h : (promote t).holds (m : Int))
    (hk : k ≤ m) : (promote t).holds (k : Int) := by
  obtain ⟨w, sg⟩ := t
  cases w <;> cases sg <;>
    simp only [promote, int32, IntType.holds, IntType.minVal, IntType.maxVal, Width.bits] at h ⊢ <;>
    norm_num at h ⊢ <;> omega

theorem holds_common_of_nat (t : IntType) (m : Nat) (h : (promote t).holds (m : Int)) :
    (common (promote t)).holds (m : Int) := by
  obtain ⟨w, sg⟩ := t
  cases w <;> cases sg <;>
    simp only [promote, common, int32, uint32, IntType.holds, IntType.minVal, IntType.maxVal,
      Width.bits] at h ⊢ <;>
    norm_num at h ⊢ <;> omega

theorem holds_common_base (t : IntType) (base : Nat) (hb : base < 2 ^ 32) :
    (common (promote t)).holds (base : Int) := by
  obtain ⟨w, sg⟩ := t
  cases w <;> cases sg <;>
    simp only [promote, common, int32, uint32, IntType.holds, IntType.minVal, IntType.maxVal,
      Width.bits] <;>
    norm_num <;> omega

theorem holds_promote_of_holds (t : IntType) (v : Int) (h : t.holds v) :
    (promote t).holds v := by
  obtain ⟨w, sg⟩ := t
  cases w <;> cases sg <;>
    simp only [promote, int32, IntType.holds, IntType.minVal, IntType.maxVal, Width.bits] at h ⊢ <;>
    norm_num at h ⊢ <;> omega

theorem holds_lt_pow (t : IntType) (m : Nat) (h : (promote t).holds (m : Int)) :
    m < 2 ^ 64 := by
  obtain ⟨w, sg⟩ := t
  cases w <;> cases sg <;>
    simp only [promote, int32, IntType.holds, IntType.minVal, IntType.maxVal, Width.bits] at h <;>
    norm_num at h ⊢ <;> omega

/-- On a non-negative `n` the statement `n /= base` is the natural quotient. -/
theorem divBase_nat (t : IntType) (m base : Nat) (h : (promote t).holds (m : Int))
    (hb0 : 0 < base) (hb : base < 2 ^ 32) :
    divBase (promote t) (m : Int) base = .ok ((m / base : Nat) : Int) := by
  unfold divBase
  rw [wrapTo_of_holds _ _ (holds_common_base t base hb),
    wrapTo_of_holds _ _ (holds_common_of_nat t m h)]
  have hne : ¬ ((base : Int) = 0) := by omega
  simp only [hne, if_false]
  rw [← Int.ofNat_tdiv,
    wrapTo_of_holds _ _ (holds_promote_of_nat t m (m / base) h (Nat.div_le_self m base))]

/-- On a non-negative `n` the expression `n % base` is the natural remainder. -/
theorem modBase_nat (t : IntType) (m base : Nat) (h : (promote t).holds (m : Int))
    (hb0 : 0 < base) (hb : base < 2 ^ 32) :
    modBase (promote t) (m : Int) base = .ok ((m % base : Nat) : Int) := by
  unfold modBase
  rw [wrapTo_of_holds _ _ (holds_common_base t base hb),
    wrapTo_of_holds _ _ (holds_common_of_nat t m h)]
  have hne : ¬ ((base : Int) = 0) := by omega
  simp only [hne, if_false]
  rw [← Int.ofNat_tmod]

/-! ## Digit lists -/

theorem digits_length_le_of_lt_pow (b m k : Nat) (hb : 2 ≤ b) (hm : m < b ^ k) :
    (Nat.digits b m).length ≤ k := by
  by_cases h0 : m = 0
  · subst h0
    simp
  · rw [Nat.digits_len b m (by omega) h0]
    have := Nat.log_lt_of_lt_pow h0 hm
    omega

theorem digits_length_le (b m k : Nat) (hb : 2 ≤ b) (hm : m < 2 ^ k) :
    (Nat.digits b m).length ≤ k :=
  digits_length_le_of_lt_pow b m k hb (lt_of_lt_of_le hm (Nat.pow_le_pow_left hb k))

theorem digits_step (b m : Nat) (hb : 2 ≤ b) (hm : m ≠ 0) :
    Nat.digits b m = (m % b) :: Nat.digits b (m / b) :=
  Nat.digits_def' (by omega) (Nat.pos_of_ne_zero hm)

theorem numeral_step (b m : Nat) (hb : 2 ≤ b) (hm : m ≠ 0) :
    numeral b m = numeral b (m / b) ++ [digitChar (m % b)] := by
  simp [numeral, digits_step b m hb hm]

theorem numeral_length (b m : Nat) : (numeral b m).length = (Nat.digits b m).length := by
  simp [numeral]

theorem alphabetAt_digit (d : Nat) (hd : d < 16) :
    alphabetAt (d : Int) = .ok (digitChar d) := by
  interval_cases d <;> rfl

/-! ## The two loops on a non-negative magnitude -/

theorem lenLoop_nat (t : IntType) (base : Nat) (hb : 2 ≤ base) (hb32 : base < 2 ^ 32) :
    ∀ (fuel m len : Nat), (promote t).holds (m : Int) →
      (Nat.digits base m).length < fuel → len + (Nat.digits base m).length < 2 ^ 32 →
      lenLoop (promote t) base fuel (m : Int) len = .ok (len + (Nat.digits base m).length) := by
  intro fuel
  induction fuel with
  | zero => intro m len _ hf _; omega
  | succ fuel ih =>
    intro m len hm hf hl
    by_cases h0 : m = 0
    · subst h0
      simp [lenLoop]
    · have hne : ¬ ((m : Int) = 0) := by omega
      rw [digits_step base m hb h0] at hf hl ⊢
      simp only [List.length_cons] at hf hl ⊢
      simp only [lenLoop, hne, if_false, divBase_nat t m base hm (by omega) hb32]
      have hlen : (len + 1) % 2 ^ 32 = len + 1 := Nat.mod_eq_of_lt (by omega)
      rw [hlen, ih (m / base) (len + 1)
        (holds_promote_of_nat t m (m / base) hm (Nat.div_le_self m base)) (by omega) (by omega)]
      congr 1
      omega

theorem set_at_length {α : Type} (xs : List α) (x y : α) (ys : List α) :
    (xs ++ x :: ys).set xs.length y = xs ++ y :: ys := by
  induction xs with
  | nil => rfl
  | cons a xs ih => simp [ih]

theorem store_at (pre : List (Option Char)) (x : Option Char) (suf : List (Option Char))
    (c : Char) :
    store ⟨pre ++ x :: suf, pre.length + 1⟩ c = .ok ⟨pre ++ some c :: suf, pre.length⟩ := by
  simp [store, set_at_length]

theorem fillLoop_nat (t : IntType) (base : Nat) (hb : 2 ≤ base) (hb32 : base < 2 ^ 32) :
    ∀ (fuel m : Nat) (pre mid suf : List (Option Char)), (promote t).holds (m : Int) →
      (∀ d ∈ Nat.digits base m, d < 16) →
      (Nat.digits base m).length < fuel → mid.length = (Nat.digits base m).length →
      fillLoop (promote t) base fuel (m : Int) ⟨pre ++ mid ++ suf, pre.length + mid.length⟩
        = .ok ⟨pre ++ (numeral base m).map some ++ suf, pre.length⟩ := by
  intro fuel
  induction fuel with
  | zero => intro m _ _ _ _ _ hf _; omega
  | succ fuel ih =>
    intro m pre mid suf hm hd hf hmid
    by_cases h0 : m = 0
    · subst h0
      have hnil : mid = [] := by
        apply List.eq_nil_of_length_eq_zero
        simpa using hmid
      subst hnil
      simp [fillLoop, numeral]
    · have hne : ¬ ((m : Int) = 0) := by omega
      rw [digits_step base m hb h0] at hd hf hmid
      simp only [List.length_cons] at hf hmid
      have hdig : m % base < 16 := hd _ (List.mem_cons_self _ _)
      have hd' : ∀ d ∈ Nat.digits base (m / base), d < 16 :=
        fun d h => hd d (List.mem_cons_of_mem _ h)
      obtain ⟨mid', x, rfl⟩ : ∃ mid' x, mid = mid' ++ [x] := by
        rcases List.eq_nil_or_concat mid with h | ⟨l, a, h⟩
        · subst h
          simp at hmid
        · exact ⟨l, a, by rw [h, List.concat_eq_append]⟩
      have hmid' : mid'.length = (Nat.digits base (m / base)).length := by
        simp only [List.length_append, List.length_singleton] at hmid
        omega
      have hbuf : pre ++ (mid' ++ [x]) ++ suf = (pre ++ mid') ++ x :: suf := by simp
      have hptr : pre.length + (mid' ++ [x]).length = (pre ++ mid').length + 1 := by
        simp only [List.length_append, List.length_singleton]
        omega
      rw [hbuf, hptr]
      simp only [fillLoop, hne, if_false, modBase_nat t m base hm (by omega) hb32,
        alphabetAt_digit _ hdig, store_at, divBase_nat t m base hm (by omega) hb32]
      have hrew : (⟨pre ++ mid' ++ some (digitChar (m % base)) :: suf, (pre ++ mid').length⟩ :
          Cursor) = ⟨pre ++ mid' ++ (some (digitChar (m % base)) :: suf),
            pre.length + mid'.length⟩ := by
        simp
      rw [hrew, ih (m / base) pre mid' (some (digitChar (m % base)) :: suf)
        (holds_promote_of_nat t m (m / base) hm (Nat.div_le_self m base)) hd' (by omega) hmid',
        numeral_step base m hb h0]
      simp

/-! ## The whole computation when the negation fits -/

theorem magnitude_of_fits (p : Overflow) (t : IntType) (N : Int) (h : negationFits t N) :
    magnitude p t N = .ok (N.natAbs : Int) := by
  unfold magnitude
  by_cases hneg : N < 0
  · have hfit : (promote t).holds (-N) := by
      rcases h with h | h
      · omega
      · exact h
    simp only [hneg, if_true, negate, hfit]
    congr 1
    omega
  · simp only [hneg, if_false]
    congr 1
    omega

theorem holds_natAbs (t : IntType) (N : Int) (hN : t.holds N) (h : negationFits t N) :
    (promote t).holds (N.natAbs : Int) := by
  by_cases hneg : N < 0
  · have hfit : (promote t).holds (-N) := by
      rcases h with h | h
      · omega
      · exact h
    have he : (N.natAbs : Int) = -N := by omega
    rw [he]
    exact hfit
  · have he : (N.natAbs : Int) = N := by omega
    rw [he]
    exact holds_promote_of_holds t N hN

theorem digits_natAbs_le (t : IntType) (N : Int) (base : Nat) (hN : t.holds N)
    (h : negationFits t N) (hb : 2 ≤ base) : (Nat.digits base N.natAbs).length ≤ 64 :=
  digits_length_le base N.natAbs 64 hb (holds_lt_pow t N.natAbs (holds_natAbs t N hN h))

/-- The size lambda returns the sign byte, the digit count and the terminator. -/
theorem buf_size_eq (p : Overflow) (fuel : Nat) (t : IntType) (N : Int) (base : Nat)
    (hN : t.holds N) (hfit : negationFits t N) (hb : 2 ≤ base) (hb32 : base < 2 ^ 32)
    (hf : 64 < fuel) :
    buf_size p fuel t N base
      = .ok ((if 0 ≤ N then 1 else 2) + (Nat.digits base N.natAbs).length) := by
  have hL := digits_natAbs_le t N base hN hfit hb
  unfold buf_size
  rw [magnitude_of_fits p t N hfit]
  simp only
  apply lenLoop_nat t base hb hb32 fuel N.natAbs _ (holds_natAbs t N hN hfit) (by omega)
  split <;> omega

/-- The constructor leaves in `buf` the sign, the digits and the terminator,
and `ptr` at the start of `buf`. -/
theorem to_string_t_of_digits (p : Overflow) (fuel : Nat) (t : IntType) (N : Int) (base : Nat)
    (hN : t.holds N) (hfit : negationFits t N) (hb : 2 ≤ base) (hb32 : base < 2 ^ 32)
    (hd : ∀ d ∈ Nat.digits base N.natAbs, d < 16) (hf : 64 < fuel) :
    to_string_t p fuel t N base = .ok ⟨terminated (signedNumeral base N), 0⟩ := by
  have hL := digits_natAbs_le t N base hN hfit hb
  have hm := holds_natAbs t N hN hfit
  unfold to_string_t
  rw [buf_size_eq p fuel t N base hN hfit hb hb32 hf, magnitude_of_fits p t N hfit]
  simp only
  by_cases hneg : N < 0
  · have h0 : ¬ (0 ≤ N) := by omega
    simp only [h0, hneg, if_false, if_true]
    have hrep : List.replicate (2 + (Nat.digits base N.natAbs).length) (none : Option Char)
        = ([none] ++ List.replicate (Nat.digits base N.natAbs).length none) ++ none :: [] := by
      rw [show 2 + (Nat.digits base N.natAbs).length
        = ((Nat.digits base N.natAbs).length + 1) + 1 by omega, List.replicate_succ',
        List.replicate_succ]
      simp
    have hp : 2 + (Nat.digits base N.natAbs).length
        = ([none] ++ List.replicate (Nat.digits base N.natAbs).length
            (none : Option Char)).length + 1 := by
      simp
      omega
    rw [hrep, hp, store_at]
    simp only
    have hcur : (⟨[none] ++ List.replicate (Nat.digits base N.natAbs).length none
          ++ some (Char.ofNat 0) :: [],
          ([none] ++ List.replicate (Nat.digits base N.natAbs).length
            (none : Option Char)).length⟩ : Cursor)
        = ⟨[none] ++ List.replicate (Nat.digits base N.natAbs).length none
          ++ [some (Char.ofNat 0)],
          ([none] : List (Option Char)).length
            + (List.replicate (Nat.digits base N.natAbs).length (none : Option Char)).length⟩ := by
      simp
      omega
    rw [hcur, fillLoop_nat t base hb hb32 fuel N.natAbs [none] _ _ hm hd (by omega) (by simp)]
    simp only
    have hfin : (⟨[none] ++ List.map some (numeral base N.natAbs) ++ [some (Char.ofNat 0)],
          ([none] : List (Option Char)).length⟩ : Cursor)
        = ⟨([] : List (Option Char)) ++ none
            :: (List.map some (numeral base N.natAbs) ++ [some (Char.ofNat 0)]),
          ([] : List (Option Char)).length + 1⟩ := by
      simp
    rw [hfin, store_at]
    simp [terminated, signedNumeral, hneg]
  · have h0 : 0 ≤ N := by omega
    simp only [h0, hneg, if_false, if_true]
    have hrep : List.replicate (1 + (Nat.digits base N.natAbs).length) (none : Option Char)
        = List.replicate (Nat.digits base N.natAbs).length none ++ none :: [] := by
      rw [show 1 + (Nat.digits base N.natAbs).length
        = (Nat.digits base N.natAbs).length + 1 by omega, List.replicate_succ']
    have hp : 1 + (Nat.digits base N.natAbs).length
        = (List.replicate (Nat.digits base N.natAbs).length (none : Option Char)).length + 1 := by
      simp
      omega
    rw [hrep, hp, store_at]
    simp only
    have hcur : (⟨List.replicate (Nat.digits base N.natAbs).length none
          ++ some (Char.ofNat 0) :: [],
          (List.replicate (Nat.digits base N.natAbs).length (none : Option Char)).length⟩ : Cursor)
        = ⟨[] ++ List.replicate (Nat.digits base N.natAbs).length none
          ++ [some (Char.ofNat 0)],
          ([] : List (Option Char)).length
            + (List.replicate (Nat.digits base N.natAbs).length (none : Option Char)).length⟩ := by
      simp
    rw [hcur, fillLoop_nat t base hb hb32 fuel N.natAbs [] _ _ hm hd (by omega) (by simp)]
    simp [terminated, signedNumeral, hneg]

/-! ## The most negative value of `long long` -/

theorem divBase_int64_neg (k base : Nat) (hk : (k : Int) ≤ 2 ^ 63) (hb0 : 0 < base)
    (hb : base < 2 ^ 32) :
    divBase int64 (-(k : Int)) base = .ok (-((k / base : Nat) : Int)) := by
  have hq : k / base ≤ k := Nat.div_le_self k base
  have h1 : wrapTo int64 (base : Int) = base :=
    wrapTo_of_holds _ _ (by
      simp only [int64, IntType.holds, IntType.minVal, IntType.maxVal, Width.bits]
      norm_num
      omega)
  have h2 : wrapTo int64 (-(k : Int)) = -(k : Int) :=
    wrapTo_of_holds _ _ (by
      simp only [int64, IntType.holds, IntType.minVal, IntType.maxVal, Width.bits]
      norm_num at hk ⊢
      omega)
  have h3 : wrapTo int64 (-((k / base : Nat) : Int)) = -((k / base : Nat) : Int) :=
    wrapTo_of_holds _ _ (by
      generalize k / base = q at hq
      simp only [int64, IntType.holds, IntType.minVal, IntType.maxVal, Width.bits]
      norm_num at hk ⊢
      omega)
  have hne : ¬ ((base : Int) = 0) := by omega
  have hc : common int64 = int64 := rfl
  unfold divBase
  simp only [hc, h1, h2, hne, if_false, Int.neg_tdiv, ← Int.ofNat_tdiv, h3]

theorem neg_tmod_eq (a b : Int) : (-a).tmod b = -(a.tmod b) := by
  rw [Int.tmod_def, Int.tmod_def, Int.neg_tdiv]
  ring

theorem modBase_int64_neg (k base : Nat) (hk : (k : Int) ≤ 2 ^ 63) (hb0 : 0 < base)
    (hb : base < 2 ^ 32) :
    modBase int64 (-(k : Int)) base = .ok (-((k % base : Nat) : Int)) := by
  have h1 : wrapTo int64 (base : Int) = base :=
    wrapTo_of_holds _ _ (by
      simp only [int64, IntType.holds, IntType.minVal, IntType.maxVal, Width.bits]
      norm_num
      omega)
  have h2 : wrapTo int64 (-(k : Int)) = -(k : Int) :=
    wrapTo_of_holds _ _ (by
      simp only [int64, IntType.holds, IntType.minVal, IntType.maxVal, Width.bits]
      norm_num at hk ⊢
      omega)
  have hne : ¬ ((base : Int) = 0) := by omega
  have hc : common int64 = int64 := rfl
  unfold modBase
  simp only [hc, h1, h2, hne, if_false, neg_tmod_eq, ← Int.ofNat_tmod]

/-- On a negative `long long` the fill loop never completes: the first nonzero
remainder is negative and indexes the literal before its start. -/
theorem fillLoop_int64_neg (base : Nat) (hb0 : 0 < base) (hb : base < 2 ^ 32) :
    ∀ (fuel k : Nat) (s : Cursor), 0 < k → (k : Int) ≤ 2 ^ 63 →
      ∃ e, fillLoop int64 base fuel (-(k : Int)) s = .error e := by
  intro fuel
  induction fuel with
  | zero => intro k s _ _; exact ⟨_, rfl⟩
  | succ fuel ih =>
    intro k s hk0 hk
    have hne : ¬ (-(k : Int) = 0) := by omega
    simp only [fillLoop, hne, if_false, modBase_int64_neg k base hk hb0 hb]
    by_cases hr : k % base = 0
    · have hq0 : 0 < k / base := by
        have hle : base ≤ k := Nat.le_of_dvd hk0 (Nat.dvd_of_mod_eq_zero hr)
        exact Nat.div_pos hle hb0
      have hqle : ((k / base : Nat) : Int) ≤ 2 ^ 63 := by
        have hq : k / base ≤ k := Nat.div_le_self k base
        omega
      have ha : alphabetAt (-((k % base : Nat) : Int)) = .ok '0' := by
        rw [hr]
        rfl
      simp only [ha]
      cases hs : store s '0' with
      | error e => exact ⟨e, rfl⟩
      | ok s' =>
        simp only [divBase_int64_neg k base hk hb0 hb]
        exact ih (k / base) s' hq0 hqle
    · have ha : alphabetAt (-((k % base : Nat) : Int)) = .error .alphabetOutOfRange := by
        unfold alphabetAt
        have : ¬ (0 ≤ -((k % base : Nat) : Int) ∧ -((k % base : Nat) : Int) < 17) := by omega
        simp only [this, if_false]
      simp only [ha]
      exact ⟨_, rfl⟩

/-- No object is constructed for the most negative `long long`, whatever an
overflowing negation does and however much fuel is given. -/
theorem most_negative_int64_faults (p : Overflow) (fuel base : Nat) (hb0 : 0 < base)
    (hb : base < 2 ^ 32) :
    ∃ e, to_string_t p fuel int64 (-9223372036854775808) base = .error e := by
  cases p with
  | trap =>
    have hm : magnitude .trap int64 (-9223372036854775808) = .error .signedOverflow := rfl
    simp only [to_string_t, buf_size, hm]
    exact ⟨_, rfl⟩
  | wrap =>
    have hm : magnitude .wrap int64 (-9223372036854775808)
        = .ok (-((9223372036854775808 : Nat) : Int)) := rfl
    unfold to_string_t
    cases hsz : buf_size .wrap fuel int64 (-9223372036854775808) base with
    | error e => exact ⟨e, rfl⟩
    | ok cap =>
      simp only
      cases hst : store ⟨List.replicate cap none, cap⟩ (Char.ofNat 0) with
      | error e => exact ⟨e, rfl⟩
      | ok s1 =>
        simp only [hm]
        obtain ⟨e, he⟩ := fillLoop_int64_neg base hb0 hb fuel 9223372036854775808 s1
          (by norm_num) (by norm_num)
        have hp : promote int64 = int64 := rfl
        rw [hp, he]
        exact ⟨e, rfl⟩

/-- For a base from 2 to 16 every digit is below 16. -/
theorem to_string_t_eq (p : Overflow) (fuel : Nat) (t : IntType) (N : Int) (base : Nat)
    (hN : t.holds N) (hfit : negationFits t N) (hb : 2 ≤ base) (hb16 : base ≤ 16)
    (hf : 64 < fuel) :
    to_string_t p fuel t N base = .ok ⟨terminated (signedNumeral base N), 0⟩ :=
  to_string_t_of_digits p fuel t N base hN hfit hb (by omega)
    (fun _ h => lt_of_lt_of_le (Nat.digits_lt_base (by omega) h) hb16) hf

/-! ## Reading the buffer as a C string -/

theorem cstr_terminated (text : List Char) (h : ∀ c ∈ text, c ≠ Char.ofNat 0) :
    cstr (terminated text) = some text := by
  induction text with
  | nil => rfl
  | cons c cs ih =>
    have hc : c ≠ Char.ofNat 0 := h c (List.mem_cons_self _ _)
    have hcs : ∀ x ∈ cs, x ≠ Char.ofNat 0 := fun x hx => h x (List.mem_cons_of_mem _ hx)
    have ih' := ih hcs
    simp only [terminated] at ih' ⊢
    simp only [List.cons_append, List.map_cons, cstr, hc, if_false, List.append_eq, ih',
      Option.map_some']

theorem digitChar_ne_nul (d : Nat) (hd : d < 16) : digitChar d ≠ Char.ofNat 0 := by
  interval_cases d <;> decide

theorem numeral_ne_nul (b m : Nat) (hb : 2 ≤ b) (hb16 : b ≤ 16) :
    ∀ c ∈ numeral b m, c ≠ Char.ofNat 0 := by
  intro c hc
  simp only [numeral, List.mem_map, List.mem_reverse] at hc
  obtain ⟨d, hd, rfl⟩ := hc
  exact digitChar_ne_nul d (lt_of_lt_of_le (Nat.digits_lt_base (by omega) hd) hb16)

theorem signedNumeral_ne_nul (b : Nat) (v : Int) (hb : 2 ≤ b) (hb16 : b ≤ 16) :
    ∀ c ∈ signedNumeral b v, c ≠ Char.ofNat 0 := by
  intro c hc
  simp only [signedNumeral, List.mem_append] at hc
  rcases hc with hc | hc
  · by_cases hv : v < 0
    · simp only [hv, if_true, List.mem_singleton] at hc
      subst hc
      decide
    · simp [hv] at hc
  · exact numeral_ne_nul b _ hb hb16 c hc

/-- The text seen through the pointer conversion is the sign and the digits. -/
theorem to_string_eq (p : Overflow) (fuel : Nat) (t : IntType) (N : Int) (base : Nat)
    (hN : t.holds N) (hfit : negationFits t N) (hb : 2 ≤ base) (hb16 : base ≤ 16)
    (hf : 64 < fuel) :
    to_string p fuel t N base = .ok (some (signedNumeral base N)) := by
  unfold to_string
  rw [to_string_t_eq p fuel t N base hN hfit hb hb16 hf]
  simp only
  rw [cstr_terminated _ (signedNumeral_ne_nul base N hb hb16)]

/-! ## Parsing a numeral -/

theorem digitValue_digitChar (d : Nat) (hd : d < 16) : digitValue (digitChar d) = some d := by
  interval_cases d <;> rfl

theorem parseFrom_append (b : Nat) (xs ys : List Char) :
    ∀ acc, parseFrom b acc (xs ++ ys) = (parseFrom b acc xs).bind (fun a => parseFrom b a ys) := by
  induction xs with
  | nil => intro acc; rfl
  | cons c cs ih =>
    intro acc
    simp only [List.cons_append, parseFrom]
    cases digitValue c with
    | none => rfl
    | some d =>
      simp only
      by_cases hd : d < b
      · simp only [hd, if_true, List.append_eq, ih]
      · simp only [hd, if_false, Option.none_bind]

theorem parseFrom_numeral (b : Nat) (hb : 2 ≤ b) (hb16 : b ≤ 16) (m : Nat) :
    parseFrom b 0 (numeral b m) = some m := by
  induction m using Nat.strong_induction_on with
  | _ m ih =>
    by_cases h0 : m = 0
    · subst h0
      simp [numeral, parseFrom]
    · have hlt : m / b < m := Nat.div_lt_self (Nat.pos_of_ne_zero h0) (by omega)
      have hr : m % b < b := Nat.mod_lt m (by omega)
      have ih' := ih (m / b) hlt
      rw [numeral_step b m hb h0, parseFrom_append, ih']
      simp only [Option.some_bind, parseFrom, digitValue_digitChar (m % b) (by omega), hr,
        if_true]
      congr 1
      exact Nat.div_add_mod' m b

/-- The digits of a nonzero magnitude are read back as that magnitude. -/
theorem parseNumeral_numeral (b : Nat) (hb : 2 ≤ b) (hb16 : b ≤ 16) (m : Nat) (hm : m ≠ 0) :
    parseNumeral b (numeral b m) = some m := by
  have h := parseFrom_numeral b hb hb16 m
  rw [numeral_step b m hb hm] at h ⊢
  cases hn : numeral b (m / b) with
  | nil =>
    rw [hn] at h
    exact h
  | cons c cs =>
    rw [hn] at h
    exact h

/-! ## The value zero -/

theorem magnitude_zero (p : Overflow) (t : IntType) : magnitude p t 0 = .ok 0 := by
  simp [magnitude]

theorem buf_size_zero (p : Overflow) (fuel : Nat) (t : IntType) (base : Nat) :
    buf_size p (fuel + 1) t 0 base = .ok 1 := by
  simp [buf_size, magnitude_zero, lenLoop]

theorem to_string_t_zero (p : Overflow) (fuel : Nat) (t : IntType) (base : Nat) :
    to_string_t p (fuel + 1) t 0 base = .ok ⟨[some (Char.ofNat 0)], 0⟩ := by
  simp [to_string_t, buf_size_zero, magnitude_zero, store, fillLoop]

/-! ## Consequences on the domain where the negation fits -/

/-- A negative value is rendered as `'-'` followed by the text of its
magnitude formatted in any type that holds the magnitude. -/
theorem to_string_negative (p : Overflow) (fuel : Nat) (t u : IntType) (N : Int) (base : Nat)
    (hN : t.holds N) (hneg : N < 0) (hfit : (promote t).holds (-N)) (hu : u.holds (-N))
    (hb : 2 ≤ base) (hb16 : base ≤ 16) (hf : 64 < fuel) :
    ∃ text, to_string p fuel u (-N) base = .ok (some text) ∧
      to_string p fuel t N base = .ok (some ('-' :: text)) := by
  refine ⟨numeral base N.natAbs, ?_, ?_⟩
  · rw [to_string_eq p fuel u (-N) base hu (Or.inl (by omega)) hb hb16 hf]
    have h : ¬ (-N < 0) := by omega
    simp [signedNumeral, h]
  · rw [to_string_eq p fuel t N base hN (Or.inr hfit) hb hb16 hf]
    simp [signedNumeral, hneg]

/-- The number of digits of a nonzero magnitude is the least `k ≥ 1` with
`b ^ k > m`. -/
theorem digits_length_least (b m : Nat) (hb : 2 ≤ b) (hm : m ≠ 0) :
    1 ≤ (Nat.digits b m).length ∧ m < b ^ (Nat.digits b m).length ∧
      ∀ k, 1 ≤ k → m < b ^ k → (Nat.digits b m).length ≤ k := by
  refine ⟨?_, Nat.lt_base_pow_length_digits (by omega), ?_⟩
  · rw [Nat.digits_len b m (by omega) hm]
    omega
  · intro k _ hk
    exact digits_length_le_of_lt_pow b m k hb hk

/-- Length of the text: the digit count, and one more for a negative value. -/
theorem text_length (p : Overflow) (fuel : Nat) (t : IntType) (N : Int) (base : Nat)
    (hN : t.holds N) (hfit : negationFits t N) (hb : 2 ≤ base) (hb16 : base ≤ 16)
    (hf : 64 < fuel) :
    ∃ text, to_string p fuel t N base = .ok (some text) ∧
      text.length = (Nat.digits base N.natAbs).length + (if N < 0 then 1 else 0) := by
  refine ⟨signedNumeral base N, to_string_eq p fuel t N base hN hfit hb hb16 hf, ?_⟩
  by_cases hneg : N < 0 <;> simp [signedNumeral, hneg, numeral_length]

/-- The buffer is a C string without slack: the last byte is the only NUL and
the text takes all the bytes before it. -/
theorem buffer_is_c_string (p : Overflow) (fuel : Nat) (t : IntType) (N : Int) (base : Nat)
    (hN : t.holds N) (hfit : negationFits t N) (hb : 2 ≤ base) (hb16 : base ≤ 16)
    (hf : 64 < fuel) :
    ∃ cap text, buf_size p fuel t N base = .ok cap ∧
      to_string_t p fuel t N base = .ok ⟨(text ++ [Char.ofNat 0]).map some, 0⟩ ∧
      (∀ c ∈ text, c ≠ Char.ofNat 0) ∧
      cstr ((text ++ [Char.ofNat 0]).map some) = some text ∧
      text.length + 1 = cap := by
  refine ⟨_, signedNumeral base N, buf_size_eq p fuel t N base hN hfit hb (by omega) hf,
    to_string_t_eq p fuel t N base hN hfit hb hb16 hf, signedNumeral_ne_nul base N hb hb16,
    cstr_terminated _ (signedNumeral_ne_nul base N hb hb16), ?_⟩
  by_cases hneg : N < 0
  · have h0 : ¬ (0 ≤ N) := by omega
    simp [signedNumeral, hneg, h0, numeral_length]
    omega
  · have h0 : 0 ≤ N := by omega
    simp [signedNumeral, hneg, h0, numeral_length]
    omega

/-! ## Bases outside 2 to 16 -/

/-- With base 1 the division leaves `n` unchanged, so the loop of the size
lambda uses up any amount of fuel. -/
theorem lenLoop_base_one (fuel : Nat) : ∀ len, lenLoop int32 1 fuel 1 len = .error .outOfFuel := by
  induction fuel with
  | zero => intro len; rfl
  | succ fuel ih =>
    intro len
    have hd : divBase int32 1 1 = .ok 1 := rfl
    have hne : ¬ ((1 : Int) = 0) := by decide
    simp only [lenLoop, hne, if_false, hd, ih]

theorem to_string_t_base_one (fuel : Nat) :
    to_string_t .trap fuel int32 1 1 = .error .outOfFuel := by
  have hm : magnitude .trap int32 1 = .ok 1 := rfl
  have hp : promote int32 = int32 := rfl
  simp only [to_string_t, buf_size, hm, hp, lenLoop_base_one]

theorem to_string_t_base_zero (fuel : Nat) :
    to_string_t .trap (fuel + 1) int32 1 0 = .error .divByZero := by
  have hm : magnitude .trap int32 1 = .ok 1 := rfl
  have hd : divBase (promote int32) 1 0 = .error .divByZero := rfl
  have hne : ¬ ((1 : Int) = 0) := by decide
  simp only [to_string_t, buf_size, hm, lenLoop, hne, if_false, hd]

/-! ## The most negative value of the narrower types under a wrapping negation -/

theorem to_string_t_int32_min (b : Fin 15) :
    to_string_t .wrap 65 int32 (-2147483648) (b.val + 2)
      = .ok ⟨terminated ('-' :: numeral (b.val + 2) 2147483648), 0⟩ := by
  have h : to_string_t .wrap 65 int32 (-2147483648) (b.val + 2)
      = (match to_string_t .wrap 65 uint32 2147483648 (b.val + 2) with
        | .ok s => .ok ⟨some '-' :: s.buf, 0⟩
        | .error e => .error e) := by
    fin_cases b <;> rfl
  have hb := b.isLt
  rw [h, to_string_t_eq .wrap 65 uint32 2147483648 (b.val + 2) (by decide) (by decide)
    (by omega) (by omega) (by decide)]
  simp [terminated, signedNumeral]

theorem buf_size_int32_min (b : Fin 15) :
    buf_size .wrap 65 int32 (-2147483648) (b.val + 2)
      = .ok (('-' :: numeral (b.val + 2) 2147483648).length + 1) := by
  have h : buf_size .wrap 65 int32 (-2147483648) (b.val + 2)
      = (match buf_size .wrap 65 uint32 2147483648 (b.val + 2) with
        | .ok n => .ok (n + 1)
        | .error e => .error e) := by
    fin_cases b <;> rfl
  have hb := b.isLt
  rw [h, buf_size_eq .wrap 65 uint32 2147483648 (b.val + 2) (by decide) (by decide)
    (by omega) (by omega) (by decide)]
  simp [numeral_length]
  omega

set_option maxRecDepth 8000 in
theorem buf_size_int64_min (b : Fin 15) :
    buf_size .wrap 65 int64 (-9223372036854775808) (b.val + 2)
      = .ok (('-' :: numeral (b.val + 2) 9223372036854775808).length + 1) := by
  have h : buf_size .wrap 65 int64 (-9223372036854775808) (b.val + 2)
      = (match buf_size .wrap 65 uint64 9223372036854775808 (b.val + 2) with
        | .ok n => .ok (n + 1)
        | .error e => .error e) := by
    fin_cases b <;> rfl
  have hb := b.isLt
  rw [h, buf_size_eq .wrap 65 uint64 9223372036854775808 (b.val + 2) (by decide) (by decide)
    (by omega) (by omega) (by decide)]
  simp [numeral_length]
  omega

theorem to_string_t_int64_min (b : Fin 15) :
    to_string_t .wrap 65 int64 (-9223372036854775808) (b.val + 2)
      = .error .alphabetOutOfRange := by
  fin_cases b <;> rfl

/-! ## The recorded evaluation computes the same result -/

theorem lenLoopT_snd (t : IntType) (base : Nat) :
    ∀ (fuel : Nat) (n : Int) (len : Nat),
      (lenLoopT t base fuel n len).2 = lenLoop t base fuel n len := by
  intro fuel
  induction fuel with
  | zero => intro n len; rfl
  | succ fuel ih =>
    intro n len
    simp only [lenLoopT, lenLoop]
    by_cases h0 : n = 0
    · simp only [h0, if_true]
    · simp only [h0, if_false]
      cases divBase t n base with
      | error e => rfl
      | ok q => exact ih q _

theorem buf_size_trace_snd (p : Overflow) (fuel : Nat) (t : IntType) (N : Int) (base : Nat) :
    (buf_size_trace p fuel t N base).2 = buf_size p fuel t N base := by
  simp only [buf_size_trace, buf_size]
  cases magnitude p t N with
  | error e => rfl
  | ok n => exact lenLoopT_snd _ _ _ _ _

theorem fillLoopT_snd (t : IntType) (base : Nat) :
    ∀ (fuel : Nat) (n : Int) (s : Cursor),
      (fillLoopT t base fuel n s).2 = fillLoop t base fuel n s := by
  intro fuel
  induction fuel with
  | zero => intro n s; rfl
  | succ fuel ih =>
    intro n s
    simp only [fillLoopT, fillLoop]
    by_cases h0 : n = 0
    · simp only [h0, if_true]
    · simp only [h0, if_false]
      cases modBase t n base with
      | error e => rfl
      | ok i =>
        simp only
        cases alphabetAt i with
        | error e => rfl
        | ok c =>
          simp only
          cases store s c with
          | error e => rfl
          | ok s' =>
            simp only
            cases divBase t n base with
            | error e => rfl
            | ok q => exact ih q s'

/-- The recorded constructor returns what the constructor returns. -/
theorem to_string_t_trace_snd (p : Overflow) (fuel : Nat) (t : IntType) (N : Int)
    (base : Nat) :
    (to_string_t_trace p fuel t N base).2 = to_string_t p fuel t N base := by
  unfold to_string_t_trace to_string_t
  cases hcap : buf_size p fuel t N base with
  | error e => rfl
  | ok cap =>
    simp only
    have hsz := buf_size_trace_snd p fuel t N base
    rw [hcap] at hsz
    rcases hbt : buf_size_trace p fuel t N base with ⟨ev, r⟩
    rw [hbt] at hsz
    simp only at hsz
    subst hsz
    simp only
    cases store ⟨List.replicate cap none, cap⟩ (Char.ofNat 0) with
    | error e => rfl
    | ok s1 =>
      simp only
      cases magnitude p t N with
      | error e => rfl
      | ok n =>
        simp only
        have hf := fillLoopT_snd (promote t) base fuel n s1
        rcases hft : fillLoopT (promote t) base fuel n s1 with ⟨fv, r⟩
        rw [hft] at hf
        simp only at hf
        cases r with
        | error e =>
          simp only
          rw [← hf]
        | ok s2 =>
          simp only
          rw [← hf]
          by_cases hneg : N < 0
          · simp only [hneg, if_true]
            cases store s2 '-' with
            | error e => rfl
            | ok s3 => rfl
          · simp only [hneg, if_false]

/-! ## The steps of the two loops on a non-negative magnitude -/

/-- The size loop performs one division per digit, each one taking a positive
`n` to the smaller `n / base`. -/
theorem lenLoopT_nat (t : IntType) (base : Nat) (hb : 2 ≤ base) (hb32 : base < 2 ^ 32) :
    ∀ (fuel m len : Nat), (promote t).holds (m : Int) →
      (Nat.digits base m).length < fuel →
      ((lenLoopT (promote t) base fuel (m : Int) len).1).length = (Nat.digits base m).length ∧
      (divisions (lenLoopT (promote t) base fuel (m : Int) len).1).length
        = (Nat.digits base m).length ∧
      ∀ d ∈ divisions (lenLoopT (promote t) base fuel (m : Int) len).1,
        0 < d.1 ∧ d.2 = d.1 / (base : Int) ∧ d.2 < d.1 := by
  intro fuel
  induction fuel with
  | zero => intro m len _ hf; omega
  | succ fuel ih =>
    intro m len hm hf
    by_cases h0 : m = 0
    · subst h0
      simp [lenLoopT, divisions]
    · have hne : ¬ ((m : Int) = 0) := by omega
      have hlt : m / base < m := Nat.div_lt_self (Nat.pos_of_ne_zero h0) (by omega)
      rw [digits_step base m hb h0] at hf ⊢
      simp only [List.length_cons] at hf ⊢
      obtain ⟨h1, h2, h3⟩ := ih (m / base) ((len + 1) % 2 ^ 32)
        (holds_promote_of_nat t m (m / base) hm (Nat.div_le_self m base)) (by omega)
      simp only [lenLoopT, hne, if_false, divBase_nat t m base hm (by omega) hb32,
        List.length_cons, divisions, h1, h2, List.mem_cons, true_and]
      intro d hd
      rcases hd with hd | hd
      · subst hd
        refine ⟨by omega, ?_, by omega⟩
        simp
      · exact h3 d hd

theorem reverse_range_succ (k n : Nat) :
    (List.range' k (n + 1)).reverse = (k + n) :: (List.range' k n).reverse := by
  rw [List.range'_1_concat, List.reverse_append]
  rfl

/-- The fill loop stores at the offsets just below `ptr`, walking down, looks
the literal up with the remainders, and divides once per digit. -/
theorem fillLoopT_nat (t : IntType) (base : Nat) (hb : 2 ≤ base) (hb32 : base < 2 ^ 32) :
    ∀ (fuel m : Nat) (pre mid suf : List (Option Char)), (promote t).holds (m : Int) →
      (∀ d ∈ Nat.digits base m, d < 16) →
      (Nat.digits base m).length < fuel → mid.length = (Nat.digits base m).length →
      writeOffsets (fillLoopT (promote t) base fuel (m : Int)
          ⟨pre ++ mid ++ suf, pre.length + mid.length⟩).1
        = (List.range' pre.length (Nat.digits base m).length).reverse ∧
      (∀ i ∈ lookups (fillLoopT (promote t) base fuel (m : Int)
          ⟨pre ++ mid ++ suf, pre.length + mid.length⟩).1, 0 ≤ i ∧ i < (base : Int)) ∧
      (divisions (fillLoopT (promote t) base fuel (m : Int)
          ⟨pre ++ mid ++ suf, pre.length + mid.length⟩).1).length
        = (Nat.digits base m).length ∧
      ∀ d ∈ divisions (fillLoopT (promote t) base fuel (m : Int)
          ⟨pre ++ mid ++ suf, pre.length + mid.length⟩).1,
        0 < d.1 ∧ d.2 = d.1 / (base : Int) ∧ d.2 < d.1 := by
  intro fuel
  induction fuel with
  | zero => intro m _ _ _ _ _ hf _; omega
  | succ fuel ih =>
    intro m pre mid suf hm hd hf hmid
    by_cases h0 : m = 0
    · subst h0
      simp [fillLoopT, writeOffsets, lookups, divisions]
    · have hne : ¬ ((m : Int) = 0) := by omega
      have hlt : m / base < m := Nat.div_lt_self (Nat.pos_of_ne_zero h0) (by omega)
      have hr : m % base < base := Nat.mod_lt m (by omega)
      rw [digits_step base m hb h0] at hd hf hmid ⊢
      simp only [List.length_cons] at hf hmid ⊢
      have hdig : m % base < 16 := hd _ (List.mem_cons_self _ _)
      have hd' : ∀ d ∈ Nat.digits base (m / base), d < 16 :=
        fun d h => hd d (List.mem_cons_of_mem _ h)
      obtain ⟨mid', x, rfl⟩ : ∃ mid' x, mid = mid' ++ [x] := by
        rcases List.eq_nil_or_concat mid with h | ⟨l, a, h⟩
        · subst h
          simp at hmid
        · exact ⟨l, a, by rw [h, List.concat_eq_append]⟩
      have hmid' : mid'.length = (Nat.digits base (m / base)).length := by
        simp only [List.length_append, List.length_singleton] at hmid
        omega
      have hbuf : pre ++ (mid' ++ [x]) ++ suf = (pre ++ mid') ++ x :: suf := by simp
      have hptr : pre.length + (mid' ++ [x]).length = (pre ++ mid').length + 1 := by
        simp only [List.length_append, List.length_singleton]
        omega
      rw [hbuf, hptr]
      have hrew : (⟨pre ++ mid' ++ some (digitChar (m % base)) :: suf, (pre ++ mid').length⟩ :
          Cursor) = ⟨pre ++ mid' ++ (some (digitChar (m % base)) :: suf),
            pre.length + mid'.length⟩ := by
        simp
      obtain ⟨h1, h2, h3, h4⟩ := ih (m / base) pre mid' (some (digitChar (m % base)) :: suf)
        (holds_promote_of_nat t m (m / base) hm (Nat.div_le_self m base)) hd' (by omega) hmid'
      simp only [fillLoopT, hne, if_false, modBase_nat t m base hm (by omega) hb32,
        alphabetAt_digit _ hdig, store_at, divBase_nat t m base hm (by omega) hb32, hrew,
        writeOffsets, lookups, divisions, h1, h3, List.length_cons, List.mem_cons]
      refine ⟨?_, ?_, trivial, ?_⟩
      · rw [reverse_range_succ, hmid']
      · intro i hi
        rcases hi with hi | hi
        · subst hi
          omega
        · exact h2 i hi
      · intro d hd
        rcases hd with hd | hd
        · subst hd
          refine ⟨by omega, ?_, by omega⟩
          simp
        · exact h4 d hd

/-! ## The steps of the constructor when the negation fits -/

theorem writeOffsets_append (a b : List Event) :
    writeOffsets (a ++ b) = writeOffsets a ++ writeOffsets b := by
  induction a with
  | nil => rfl
  | cons e a ih => cases e <;> simp [writeOffsets, ih]

theorem lookups_append (a b : List Event) : lookups (a ++ b) = lookups a ++ lookups b := by
  induction a with
  | nil => rfl
  | cons e a ih => cases e <;> simp [lookups, ih]

theorem divisions_append (a b : List Event) :
    divisions (a ++ b) = divisions a ++ divisions b := by
  induction a with
  | nil => rfl
  | cons e a ih => cases e <;> simp [divisions, ih]

/-- The size loop neither stores nor subscripts. -/
theorem lenLoopT_only_divides (t : IntType) (base : Nat) :
    ∀ (fuel : Nat) (n : Int) (len : Nat),
      writeOffsets (lenLoopT t base fuel n len).1 = [] ∧
      lookups (lenLoopT t base fuel n len).1 = [] := by
  intro fuel
  induction fuel with
  | zero => intro n len; exact ⟨rfl, rfl⟩
  | succ fuel ih =>
    intro n len
    simp only [lenLoopT]
    by_cases h0 : n = 0
    · simp only [h0, if_true]
      exact ⟨rfl, rfl⟩
    · simp only [h0, if_false]
      cases divBase t n base with
      | error e => exact ⟨rfl, rfl⟩
      | ok q =>
        simp only [writeOffsets, lookups]
        exact ih q _

theorem buf_size_trace_pair (p : Overflow) (fuel : Nat) (t : IntType) (N : Int) (base : Nat)
    (hN : t.holds N) (hfit : negationFits t N) (hb : 2 ≤ base) (hb32 : base < 2 ^ 32)
    (hf : 64 < fuel) :
    buf_size_trace p fuel t N base
      = ((lenLoopT (promote t) base fuel (N.natAbs : Int) (if 0 ≤ N then 1 else 2)).1,
          .ok ((if 0 ≤ N then 1 else 2) + (Nat.digits base N.natAbs).length)) := by
  have h2 := buf_size_trace_snd p fuel t N base
  rw [buf_size_eq p fuel t N base hN hfit hb hb32 hf] at h2
  have h1 : (buf_size_trace p fuel t N base).1
      = (lenLoopT (promote t) base fuel (N.natAbs : Int) (if 0 ≤ N then 1 else 2)).1 := by
    simp only [buf_size_trace, magnitude_of_fits p t N hfit]
  exact Prod.ext h1 h2

theorem fillLoopT_pair (t : IntType) (base : Nat) (hb : 2 ≤ base) (hb32 : base < 2 ^ 32)
    (fuel m : Nat) (pre mid suf : List (Option Char)) (hm : (promote t).holds (m : Int))
    (hd : ∀ d ∈ Nat.digits base m, d < 16) (hf : (Nat.digits base m).length < fuel)
    (hmid : mid.length = (Nat.digits base m).length) :
    fillLoopT (promote t) base fuel (m : Int) ⟨pre ++ mid ++ suf, pre.length + mid.length⟩
      = ((fillLoopT (promote t) base fuel (m : Int)
            ⟨pre ++ mid ++ suf, pre.length + mid.length⟩).1,
          .ok ⟨pre ++ (numeral base m).map some ++ suf, pre.length⟩) := by
  have h2 := fillLoopT_snd (promote t) base fuel (m : Int)
    ⟨pre ++ mid ++ suf, pre.length + mid.length⟩
  rw [fillLoop_nat t base hb hb32 fuel m pre mid suf hm hd hf hmid] at h2
  exact Prod.ext rfl h2

theorem reverse_range_one (n : Nat) :
    (List.range (1 + n)).reverse = n :: (List.range' 0 n).reverse := by
  rw [Nat.add_comm, List.range_eq_range', reverse_range_succ]
  simp

theorem reverse_range_two (n : Nat) :
    (List.range (2 + n)).reverse = (1 + n) :: (List.range' 1 n).reverse ++ [0] := by
  rw [show 2 + n = (n + 1) + 1 by omega, List.range_eq_range', List.range'_succ,
    List.reverse_cons, reverse_range_succ]

/-- When the negation fits, the constructor stores at the offsets
`capacity - 1`, ..., `0` in that order, subscripts the literal with values below
the base, and divides once per digit in each of its two loops. -/
theorem to_string_t_trace_steps (p : Overflow) (fuel : Nat) (t : IntType) (N : Int)
    (base : Nat) (hN : t.holds N) (hfit : negationFits t N) (hb : 2 ≤ base)
    (hb16 : base ≤ 16) (hf : 64 < fuel) :
    writeOffsets (to_string_t_trace p fuel t N base).1
      = (List.range ((if 0 ≤ N then 1 else 2) + (Nat.digits base N.natAbs).length)).reverse ∧
    (∀ i ∈ lookups (to_string_t_trace p fuel t N base).1, 0 ≤ i ∧ i < (base : Int)) ∧
    (divisions (to_string_t_trace p fuel t N base).1).length
      = 2 * (Nat.digits base N.natAbs).length ∧
    ∀ d ∈ divisions (to_string_t_trace p fuel t N base).1,
      0 < d.1 ∧ d.2 = d.1 / (base : Int) ∧ d.2 < d.1 := by
  have hb32 : base < 2 ^ 32 := by omega
  have hd : ∀ d ∈ Nat.digits base N.natAbs, d < 16 :=
    fun d h => lt_of_lt_of_le (Nat.digits_lt_base (by omega) h) hb16
  have hL := digits_natAbs_le t N base hN hfit hb
  have hm := holds_natAbs t N hN hfit
  obtain ⟨-, e2, e3⟩ := lenLoopT_nat t base hb hb32 fuel N.natAbs (if 0 ≤ N then 1 else 2) hm
    (by omega)
  obtain ⟨e4, e5⟩ := lenLoopT_only_divides (promote t) base fuel (N.natAbs : Int)
    (if 0 ≤ N then 1 else 2)
  unfold to_string_t_trace
  rw [buf_size_eq p fuel t N base hN hfit hb hb32 hf,
    buf_size_trace_pair p fuel t N base hN hfit hb hb32 hf, magnitude_of_fits p t N hfit]
  simp only
  by_cases hneg : N < 0
  · have h0 : ¬ (0 ≤ N) := by omega
    simp only [h0, hneg, if_false, if_true] at e2 e3 e4 e5 ⊢
    have hrep : List.replicate (2 + (Nat.digits base N.natAbs).length) (none : Option Char)
        = ([none] ++ List.replicate (Nat.digits base N.natAbs).length none) ++ none :: [] := by
      rw [show 2 + (Nat.digits base N.natAbs).length
        = ((Nat.digits base N.natAbs).length + 1) + 1 by omega, List.replicate_succ',
        List.replicate_succ]
      simp
    have hp : 2 + (Nat.digits base N.natAbs).length
        = ([none] ++ List.replicate (Nat.digits base N.natAbs).length
            (none : Option Char)).length + 1 := by
      simp
      omega
    rw [hrep, hp, store_at]
    simp only
    have hcur : (⟨[none] ++ List.replicate (Nat.digits base N.natAbs).length none
          ++ some (Char.ofNat 0) :: [],
          ([none] ++ List.replicate (Nat.digits base N.natAbs).length
            (none : Option Char)).length⟩ : Cursor)
        = ⟨[none] ++ List.replicate (Nat.digits base N.natAbs).length none
          ++ [some (Char.ofNat 0)],
          ([none] : List (Option Char)).length
            + (List.replicate (Nat.digits base N.natAbs).length (none : Option Char)).length⟩ := by
      simp
      omega
    obtain ⟨f1, f2, f3, f4⟩ := fillLoopT_nat t base hb hb32 fuel N.natAbs [none]
      (List.replicate (Nat.digits base N.natAbs).length none) [some (Char.ofNat 0)] hm hd
      (by omega) (by simp)
    rw [hcur, fillLoopT_pair t base hb hb32 fuel N.natAbs [none] _ _ hm hd (by omega) (by simp)]
    simp only
    have hfin : (⟨[none] ++ List.map some (numeral base N.natAbs) ++ [some (Char.ofNat 0)],
          ([none] : List (Option Char)).length⟩ : Cursor)
        = ⟨([] : List (Option Char)) ++ none
            :: (List.map some (numeral base N.natAbs) ++ [some (Char.ofNat 0)]),
          ([] : List (Option Char)).length + 1⟩ := by
      simp
    rw [hfin, store_at]
    generalize (fillLoopT (promote t) base fuel (N.natAbs : Int)
      ⟨[none] ++ List.replicate (Nat.digits base N.natAbs).length none
        ++ [some (Char.ofNat 0)],
        ([none] : List (Option Char)).length
          + (List.replicate (Nat.digits base N.natAbs).length
              (none : Option Char)).length⟩).1 = fv at f1 f2 f3 f4 ⊢
    generalize (lenLoopT (promote t) base fuel (N.natAbs : Int) 2).1 = ev at e2 e3 e4 e5 ⊢
    simp only [writeOffsets_append, lookups_append, divisions_append, writeOffsets, lookups,
      divisions, e4, e5, f1, List.nil_append, List.append_nil, List.length_append, e2, f3,
      List.mem_append, List.cons_append]
    refine ⟨?_, ?_, by omega, ?_⟩
    · simp only [List.length_cons, List.length_replicate, List.length_nil,
        List.length_singleton, Nat.zero_add]
      rw [show (Nat.digits base N.natAbs).length + 1 + 1
        = 2 + (Nat.digits base N.natAbs).length by omega, reverse_range_two,
        show 1 + (Nat.digits base N.natAbs).length
          = (Nat.digits base N.natAbs).length + 1 by omega]
      rfl
    · intro i hi
      exact f2 i hi
    · intro d hd
      rcases hd with hd | hd
      · exact e3 d hd
      · exact f4 d hd
  · have h0 : 0 ≤ N := by omega
    simp only [h0, hneg, if_false, if_true] at e2 e3 e4 e5 ⊢
    have hrep : List.replicate (1 + (Nat.digits base N.natAbs).length) (none : Option Char)
        = List.replicate (Nat.digits base N.natAbs).length none ++ none :: [] := by
      rw [show 1 + (Nat.digits base N.natAbs).length
        = (Nat.digits base N.natAbs).length + 1 by omega, List.replicate_succ']
    have hp : 1 + (Nat.digits base N.natAbs).length
        = (List.replicate (Nat.digits base N.natAbs).length (none : Option Char)).length + 1 := by
      simp
      omega
    rw [hrep, hp, store_at]
    simp only
    have hcur : (⟨List.replicate (Nat.digits base N.natAbs).length none
          ++ some (Char.ofNat 0) :: [],
          (List.replicate (Nat.digits base N.natAbs).length (none : Option Char)).length⟩ : Cursor)
        = ⟨[] ++ List.replicate (Nat.digits base N.natAbs).length none
          ++ [some (Char.ofNat 0)],
          ([] : List (Option Char)).length
            + (List.replicate (Nat.digits base N.natAbs).length (none : Option Char)).length⟩ := by
      simp
    obtain ⟨f1, f2, f3, f4⟩ := fillLoopT_nat t base hb hb32 fuel N.natAbs []
      (List.replicate (Nat.digits base N.natAbs).length none) [some (Char.ofNat 0)] hm hd
      (by omega) (by simp)
    rw [hcur, fillLoopT_pair t base hb hb32 fuel N.natAbs [] _ _ hm hd (by omega) (by simp)]
    generalize (fillLoopT (promote t) base fuel (N.natAbs : Int)
      ⟨[] ++ List.replicate (Nat.digits base N.natAbs).length none
        ++ [some (Char.ofNat 0)],
        ([] : List (Option Char)).length
          + (List.replicate (Nat.digits base N.natAbs).length
              (none : Option Char)).length⟩).1 = fv at f1 f2 f3 f4 ⊢
    generalize (lenLoopT (promote t) base fuel (N.natAbs : Int) 1).1 = ev at e2 e3 e4 e5 ⊢
    simp only [writeOffsets_append, lookups_append, divisions_append, writeOffsets, lookups,
      divisions, e4, e5, f1, List.nil_append, List.append_nil, List.length_append, e2, f3,
      List.mem_append, List.cons_append]
    refine ⟨?_, ?_, by omega, ?_⟩
    · simp only [List.length_replicate, List.length_nil]
      rw [show (Nat.digits base N.natAbs).length + 1
        = 1 + (Nat.digits base N.natAbs).length by omega, reverse_range_one]
    · intro i hi
      exact f2 i hi
    · intro d hd
      rcases hd with hd | hd
      · exact e3 d hd
      · exact f4 d hd

/-! ## The characters of the text -/

theorem alphabet_getElem (d : Nat) (hd : d < 16) : alphabet[d]? = some (digitChar d) := by
  interval_cases d <;> rfl

/-- A digit below the base is rendered by one of the first `b` characters of
the literal. -/
theorem digitChar_mem_take (b d : Nat) (hd : d < b) (hb16 : b ≤ 16) :
    digitChar d ∈ alphabet.take b := by
  rw [List.mem_iff_getElem?]
  exact ⟨d, by rw [List.getElem?_take_of_lt hd, alphabet_getElem d (by omega)]⟩

theorem digitChar_not_lower (d : Nat) (hd : d < 16) : (digitChar d).isLower = false := by
  interval_cases d <;> rfl

theorem digitChar_ne_minus (d : Nat) (hd : d < 16) : digitChar d ≠ '-' := by
  interval_cases d <;> decide

theorem digitChar_ne_zero (d : Nat) (h1 : 1 ≤ d) (hd : d < 16) : digitChar d ≠ '0' := by
  interval_cases d <;> decide

theorem numeral_mem (b m : Nat) (hb : 2 ≤ b) (c : Char) (hc : c ∈ numeral b m) :
    ∃ d, d < b ∧ c = digitChar d := by
  simp only [numeral, List.mem_map, List.mem_reverse] at hc
  obtain ⟨d, hd, rfl⟩ := hc
  exact ⟨d, Nat.digits_lt_base (by omega) hd, rfl⟩

theorem minus_not_mem_numeral (b m : Nat) (hb : 2 ≤ b) (hb16 : b ≤ 16) :
    '-' ∉ numeral b m := by
  intro h
  obtain ⟨d, hd, he⟩ := numeral_mem b m hb '-' h
  exact digitChar_ne_minus d (by omega) he.symm

/-- The text of a nonzero magnitude starts with a nonzero digit. -/
theorem numeral_head (b m : Nat) (hb : 2 ≤ b) (hm : m ≠ 0) :
    ∃ d rest, numeral b m = digitChar d :: rest ∧ 1 ≤ d ∧ d < b := by
  have hne : Nat.digits b m ≠ [] := Nat.digits_ne_nil_iff_ne_zero.mpr hm
  have hlast := Nat.getLast_digit_ne_zero b hm
  have hmem : (Nat.digits b m).getLast hne ∈ Nat.digits b m := List.getLast_mem hne
  refine ⟨(Nat.digits b m).getLast hne, ((Nat.digits b m).dropLast).reverse.map digitChar,
    ?_, by omega, Nat.digits_lt_base (by omega) hmem⟩
  unfold numeral
  conv_lhs => rw [← List.dropLast_append_getLast hne]
  simp

/-! ## Different values have different texts -/

theorem numeral_injective (b : Nat) (hb : 2 ≤ b) (hb16 : b ≤ 16) (m k : Nat)
    (h : numeral b m = numeral b k) : m = k := by
  have h1 := parseFrom_numeral b hb hb16 m
  rw [h, parseFrom_numeral b hb hb16 k] at h1
  exact (Option.some.inj h1).symm

theorem signedNumeral_injective (b : Nat) (hb : 2 ≤ b) (hb16 : b ≤ 16) (v w : Int)
    (h : signedNumeral b v = signedNumeral b w) : v = w := by
  unfold signedNumeral at h
  by_cases hv : v < 0 <;> by_cases hw : w < 0
  · simp only [hv, hw, if_true, List.singleton_append, List.cons.injEq, true_and] at h
    have := numeral_injective b hb hb16 _ _ h
    omega
  · simp only [hv, hw, if_true, if_false, List.singleton_append, List.nil_append] at h
    exact absurd (h ▸ List.mem_cons_self _ _) (minus_not_mem_numeral b w.natAbs hb hb16)
  · simp only [hv, hw, if_true, if_false, List.singleton_append, List.nil_append] at h
    exact absurd (h ▸ List.mem_cons_self _ _) (minus_not_mem_numeral b v.natAbs hb hb16)
  · simp only [hv, hw, if_false, List.nil_append] at h
    have := numeral_injective b hb hb16 _ _ h
    omega

/-! ## The size computation under a wrapping negation -/

theorem lenLoop_int64_neg (base : Nat) (hb : 2 ≤ base) (hb32 : base < 2 ^ 32) :
    ∀ (fuel k len : Nat), (k : Int) ≤ 2 ^ 63 → (Nat.digits base k).length < fuel →
      len + (Nat.digits base k).length < 2 ^ 32 →
      lenLoop int64 base fuel (-(k : Int)) len = .ok (len + (Nat.digits base k).length) := by
  intro fuel
  induction fuel with
  | zero => intro k len _ hf _; omega
  | succ fuel ih =>
    intro k len hk hf hl
    by_cases h0 : k = 0
    · subst h0
      simp [lenLoop]
    · have hne : ¬ (-(k : Int) = 0) := by omega
      have hq : k / base ≤ k := Nat.div_le_self k base
      rw [digits_step base k hb h0] at hf hl ⊢
      simp only [List.length_cons] at hf hl ⊢
      simp only [lenLoop, hne, if_false, divBase_int64_neg k base hk (by omega) hb32]
      have hlen : (len + 1) % 2 ^ 32 = len + 1 := Nat.mod_eq_of_lt (by omega)
      rw [hlen, ih (k / base) (len + 1) (by omega) (by omega) (by omega)]
      congr 1
      omega

theorem divBase_int32_min (base : Nat) (hb : 2 ≤ base) (hb32 : base < 2 ^ 32) :
    divBase int32 (-2147483648) base = .ok ((2147483648 / base : Nat) : Int) := by
  have hc : common int32 = uint32 := rfl
  have h1 : wrapTo uint32 (base : Int) = base :=
    wrapTo_of_holds _ _ (by
      simp only [uint32, IntType.holds, IntType.minVal, IntType.maxVal, Width.bits]
      norm_num
      omega)
  have h2 : wrapTo uint32 (-2147483648) = ((2147483648 : Nat) : Int) := rfl
  have hq : 2147483648 / base ≤ 1073741824 := by
    calc 2147483648 / base ≤ 2147483648 / 2 := Nat.div_le_div_left hb (by norm_num)
      _ = 1073741824 := by norm_num
  have h3 : wrapTo int32 ((2147483648 / base : Nat) : Int) = ((2147483648 / base : Nat) : Int) :=
    wrapTo_of_holds _ _ (by
      generalize 2147483648 / base = q at hq
      simp only [int32, IntType.holds, IntType.minVal, IntType.maxVal, Width.bits]
      norm_num
      omega)
  have hne : ¬ ((base : Int) = 0) := by omega
  unfold divBase
  simp only [hc, h1, h2, hne, if_false, ← Int.ofNat_tdiv, h3]

theorem not_fits_cases (t : IntType) (N : Int) (hN : t.holds N) (hfit : ¬ negationFits t N) :
    (t = int32 ∧ N = -2147483648) ∨ (t = int64 ∧ N = -9223372036854775808) := by
  obtain ⟨w, sg⟩ := t
  cases w <;> cases sg <;>
    simp only [negationFits, promote, int32, int64, IntType.holds, IntType.minVal,
      IntType.maxVal, Width.bits, not_or, not_and, not_le] at hN hfit ⊢ <;>
    norm_num at hN hfit ⊢ <;>
    omega

/-- With a wrapping negation the size lambda returns sign + digit count + 1
for every representable value, the most negative ones included. -/
theorem buf_size_wrap_eq (fuel : Nat) (t : IntType) (N : Int) (base : Nat) (hN : t.holds N)
    (hb : 2 ≤ base) (hb32 : base < 2 ^ 32) (hf : 64 < fuel) :
    buf_size .wrap fuel t N base
      = .ok ((if 0 ≤ N then 1 else 2) + (Nat.digits base N.natAbs).length) := by
  by_cases hfit : negationFits t N
  · exact buf_size_eq .wrap fuel t N base hN hfit hb hb32 hf
  · rcases not_fits_cases t N hN hfit with ⟨rfl, rfl⟩ | ⟨rfl, rfl⟩
    · obtain ⟨f, rfl⟩ : ∃ f, fuel = f + 1 := ⟨fuel - 1, by omega⟩
      have hm : magnitude .wrap int32 (-2147483648) = .ok (-2147483648) := rfl
      have hp : promote int32 = int32 := rfl
      have hne : ¬ ((-2147483648 : Int) = 0) := by decide
      have hif : (if (0 : Int) ≤ -2147483648 then 1 else 2) = 2 := rfl
      have hnat : Int.natAbs (-2147483648) = 2147483648 := rfl
      have hL := digits_length_le base 2147483648 32 hb (by norm_num)
      have hstep := digits_step base 2147483648 hb (by norm_num)
      rw [hstep, List.length_cons] at hL
      have hq : 2147483648 / base ≤ 2147483648 := Nat.div_le_self _ _
      have hh : (promote int32).holds ((2147483648 / base : Nat) : Int) := by
        have hq2 : 2147483648 / base ≤ 1073741824 := by
          calc 2147483648 / base ≤ 2147483648 / 2 := Nat.div_le_div_left hb (by norm_num)
            _ = 1073741824 := by norm_num
        generalize 2147483648 / base = q at hq2
        simp only [promote, int32, IntType.holds, IntType.minVal, IntType.maxVal, Width.bits]
        norm_num
        omega
      have hrest := lenLoop_nat int32 base hb hb32 f (2147483648 / base) 3 hh (by omega)
        (by omega)
      simp only [buf_size, hm, hp, hif, hnat, lenLoop, hne, if_false,
        divBase_int32_min base hb hb32]
      rw [hp] at hrest
      rw [show (2 + 1) % 2 ^ 32 = 3 by norm_num, hrest, hstep, List.length_cons]
      congr 1
      omega
    · have hm : magnitude .wrap int64 (-9223372036854775808)
          = .ok (-((9223372036854775808 : Nat) : Int)) := rfl
      have hp : promote int64 = int64 := rfl
      have hif : (if (0 : Int) ≤ -9223372036854775808 then 1 else 2) = 2 := rfl
      have hnat : Int.natAbs (-9223372036854775808) = 9223372036854775808 := rfl
      have hL := digits_length_le base 9223372036854775808 64 hb (by norm_num)
      simp only [buf_size, hm, hp, hif, hnat]
      exact lenLoop_int64_neg base hb hb32 fuel 9223372036854775808 2 (by norm_num) (by omega)
        (by omega)

theorem natAbs_lt_pow (t : IntType) (v : Int) (h : t.holds v) :
    v.natAbs < 2 ^ t.width.bits := by
  obtain ⟨w, sg⟩ := t
  cases w <;> cases sg <;>
    simp only [IntType.holds, IntType.minVal, IntType.maxVal, Width.bits] at h ⊢ <;>
    norm_num at h ⊢ <;> omega

/-- No base needs more digits than base 2. -/
theorem digits_length_le_binary (b m : Nat) (hb : 2 ≤ b) :
    (Nat.digits b m).length ≤ (Nat.digits 2 m).length :=
  digits_length_le_of_lt_pow b m _ hb
    (lt_of_lt_of_le (Nat.lt_base_pow_length_digits (by norm_num)) (Nat.pow_le_pow_left hb _))

theorem fits_of_ne_min (t : IntType) (v : Int) (h : t.holds v)
    (hmin : t.isSigned = true → v ≠ t.minVal) : negationFits t v := by
  obtain ⟨w, sg⟩ := t
  cases w <;> cases sg <;>
    simp only [negationFits, promote, int32, IntType.holds, IntType.minVal, IntType.maxVal,
      Width.bits] at h hmin ⊢ <;>
    norm_num at h hmin ⊢ <;> omega

theorem most_negative_int64_traps (fuel base : Nat) :
    to_string_t .trap fuel int64 (-9223372036854775808) base = .error .signedOverflow := by
  have hm : magnitude .trap int64 (-9223372036854775808) = .error .signedOverflow := rfl
  simp only [to_string_t, buf_size, hm]

theorem most_negative_int32_traps (fuel base : Nat) :
    to_string_t .trap fuel int32 (-2147483648) base = .error .signedOverflow := by
  have hm : magnitude .trap int32 (-2147483648) = .error .signedOverflow := rfl
  simp only [to_string_t, buf_size, hm]

/-! ## Shape of the text when the negation fits -/

/-- Every character after the optional sign is one of the first `b` characters
of the literal, so neither a lowercase letter nor the NUL that ends it. -/
theorem text_digits_of_base (p : Overflow) (fuel : Nat) (t : IntType) (N : Int) (base : Nat)
    (hN : t.holds N) (hfit : negationFits t N) (hb : 2 ≤ base) (hb16 : base ≤ 16)
    (hf : 64 < fuel) :
    ∃ body, to_string p fuel t N base = .ok (some ((if N < 0 then ['-'] else []) ++ body)) ∧
      ∀ c ∈ body, c ∈ alphabet.take base ∧ c.isLower = false ∧ c ≠ Char.ofNat 0 := by
  refine ⟨numeral base N.natAbs, to_string_eq p fuel t N base hN hfit hb hb16 hf, ?_⟩
  intro c hc
  obtain ⟨d, hd, rfl⟩ := numeral_mem base N.natAbs hb c hc
  exact ⟨digitChar_mem_take base d hd hb16, digitChar_not_lower d (by omega),
    digitChar_ne_nul d (by omega)⟩

/-- The text of a nonzero value is the optional sign and then a nonzero digit;
no `'-'` occurs among the digits. -/
theorem text_canonical (p : Overflow) (fuel : Nat) (t : IntType) (N : Int) (base : Nat)
    (hN : t.holds N) (hfit : negationFits t N) (h0 : N ≠ 0) (hb : 2 ≤ base)
    (hb16 : base ≤ 16) (hf : 64 < fuel) :
    ∃ d rest, to_string p fuel t N base
        = .ok (some ((if N < 0 then ['-'] else []) ++ digitChar d :: rest)) ∧
      1 ≤ d ∧ d < base ∧ digitChar d ≠ '0' ∧ '-' ∉ digitChar d :: rest := by
  obtain ⟨d, rest, hnum, h1, hd⟩ := numeral_head base N.natAbs hb (by omega)
  refine ⟨d, rest, ?_, h1, hd, digitChar_ne_zero d h1 (by omega), ?_⟩
  · rw [to_string_eq p fuel t N base hN hfit hb hb16 hf, signedNumeral, hnum]
  · rw [← hnum]
    exact minus_not_mem_numeral base N.natAbs hb hb16

/-! ## Reading the text of a positive value back -/

/-- For a positive value the text is read back as the value. -/
theorem round_trip_positive (p : Overflow) (fuel : Nat) (t : IntType) (v : Int) (base : Nat)
    (hv : t.holds v) (h0 : 0 < v) (hb : 2 ≤ base) (hb16 : base ≤ 16) (hf : 64 < fuel) :
    ∃ text, to_string p fuel t v base = .ok (some text) ∧
      (parseNumeral base text).map Int.ofNat = some v := by
  refine ⟨signedNumeral base v,
    to_string_eq p fuel t v base hv (Or.inl (by omega)) hb hb16 hf, ?_⟩
  have hneg : ¬ (v < 0) := by omega
  simp only [signedNumeral, hneg, if_false, List.nil_append,
    parseNumeral_numeral base hb hb16 v.natAbs (by omega), Option.map_some']
  congr 1
  exact Int.natAbs_of_nonneg (by omega)

/-! ## Claims -/

/-- C1: the claim is that for every nonzero representable value and every base
from 2 to 16 the constructor builds the buffer sign, digits, NUL.  For the most
negative `long long` no buffer is built: with the language rule the negation
`-N` overflows, with a wrapping negation the lookup `[n % base]` gets a negative
index; this holds with any amount of fuel. -/
theorem c1_most_negative_has_no_buffer :
    int64.holds (-9223372036854775808) ∧
    (∀ (p : Overflow) (fuel : Nat),
      ∃ e, to_string_t p fuel int64 (-9223372036854775808) 10 = .error e) ∧
    to_string_t .trap 65 int64 (-9223372036854775808) 10 = .error .signedOverflow ∧
    to_string_t .wrap 65 int64 (-9223372036854775808) 10 = .error .alphabetOutOfRange :=
  ⟨by decide,
    fun p fuel => most_negative_int64_faults p fuel 10 (by norm_num) (by norm_num),
    rfl, rfl⟩

/-- C2: the claim is that formatting 0 yields the text "0".  For every type,
every base and any positive amount of fuel the constructor writes only the
terminator: the buffer is the single NUL byte and the text is empty. -/
theorem c2_zero_yields_empty_text (p : Overflow) (fuel : Nat) (t : IntType) (base : Nat) :
    to_string_t p (fuel + 1) t 0 base = .ok ⟨[some (Char.ofNat 0)], 0⟩ ∧
    to_string p (fuel + 1) t 0 base = .ok (some []) := by
  refine ⟨to_string_t_zero p fuel t base, ?_⟩
  simp [to_string, to_string_t_zero, cstr]

/-- C3: the claim is that the text of every representable non-negative value,
read back as a base-`b` numeral, gives the value.  For the value 0 the text is
empty for every type, base and positive amount of fuel, and the empty text is
not a numeral: nothing is read back. -/
theorem c3_zero_is_not_read_back (p : Overflow) (fuel : Nat) (t : IntType) (base : Nat) :
    to_string p (fuel + 1) t 0 base = .ok (some []) ∧
    parseNumeral base [] = none ∧
    (parseNumeral base []).map Int.ofNat ≠ some 0 := by
  refine ⟨?_, rfl, by simp [parseNumeral]⟩
  simp [to_string, to_string_t_zero, cstr]

/-- C4: the claim is that every representable negative value is rendered as
`'-'` followed by the text of its magnitude.  For the most negative `long long`
there is no text at all (with any treatment of the overflow and any fuel), while
its magnitude, formatted as an `unsigned long long` in base 16, reads
"8000000000000000". -/
theorem c4_most_negative_has_no_text :
    int64.holds (-9223372036854775808) ∧
    (∀ (p : Overflow) (fuel : Nat),
      ∃ e, to_string p fuel int64 (-9223372036854775808) 16 = .error e) ∧
    to_string .trap 65 uint64 9223372036854775808 16
      = .ok (some ['8', '0', '0', '0', '0', '0', '0', '0', '0', '0', '0', '0', '0', '0', '0',
          '0']) := by
  refine ⟨by decide, ?_, rfl⟩
  intro p fuel
  obtain ⟨e, he⟩ := most_negative_int64_faults p fuel 16 (by norm_num) (by norm_num)
  exact ⟨e, by simp only [to_string, he]⟩

/-- C5: the claim is that the capacity is digit count + sign + 1 with the
digit string of 0 counted as the one digit "0", which makes 2 bytes for the value
0.  The size lambda returns 1 for 0, for every type and base: `len` starts at 1
and the loop body never runs. -/
theorem c5_zero_capacity_is_one (p : Overflow) (fuel : Nat) (t : IntType) (base : Nat) :
    buf_size p (fuel + 1) t 0 base = .ok 1 ∧
    (digitString base 0).length + (if (0 : Int) < 0 then 1 else 0) + 1 = 2 :=
  ⟨buf_size_zero p fuel t base, by simp [digitString]⟩

/-- C6: the claim is that the text of every nonzero value has as many
characters as the magnitude has digits, plus one when negative.  For the most
negative `long long` in base 2 (64 digits and a sign) no text is produced, with
any treatment of the overflow and any fuel. -/
theorem c6_most_negative_has_no_length :
    int64.holds (-9223372036854775808) ∧
    ∀ (p : Overflow) (fuel : Nat),
      ∃ e, to_string p fuel int64 (-9223372036854775808) 2 = .error e := by
  refine ⟨by decide, ?_⟩
  intro p fuel
  obtain ⟨e, he⟩ := most_negative_int64_faults p fuel 2 (by norm_num) (by norm_num)
  exact ⟨e, by simp only [to_string, he]⟩

/-- C7: the claim is that for every value and every base from 2 to 16 the
constructed buffer is a C string without slack.  For the most negative
`long long` and each of the fifteen bases the construction faults, so there is
no buffer to read. -/
theorem c7_most_negative_is_no_c_string :
    ∀ (p : Overflow) (fuel : Nat) (b : Fin 15),
      ∃ e, to_string_t p fuel int64 (-9223372036854775808) (b.val + 2) = .error e := by
  intro p fuel b
  have hb : b.val + 2 < 2 ^ 32 := by
    have := b.isLt
    omega
  exact most_negative_int64_faults p fuel (b.val + 2) (by omega) hb

/-- C8: for an 8-bit signed type every value, -128 included, is negated in
`int` without overflow, so with fuel for 64 digits and any base from 2 to 16 the
buffer holds the sign, the digits of the magnitude and the terminator, and
-128 in base 16 reads "-80". -/
theorem c8_int8_every_value (p : Overflow) (fuel : Nat) (N : Int) (base : Nat)
    (hN : int8.holds N) (hb : 2 ≤ base) (hb16 : base ≤ 16) (hf : 64 < fuel) :
    promote int8 = int32 ∧ int32.holds (-N) ∧
    magnitude p int8 N = .ok (N.natAbs : Int) ∧
    to_string_t p fuel int8 N base = .ok ⟨terminated (signedNumeral base N), 0⟩ ∧
    to_string p fuel int8 N base
      = .ok (some ((if N < 0 then ['-'] else []) ++ numeral base N.natAbs)) ∧
    to_string p fuel int8 (-128) 16 = .ok (some ['-', '8', '0']) := by
  have hneg : int32.holds (-N) := by
    simp only [int8, int32, IntType.holds, IntType.minVal, IntType.maxVal, Width.bits] at hN ⊢
    norm_num at hN ⊢
    omega
  have hfit : negationFits int8 N := Or.inr hneg
  refine ⟨rfl, hneg, magnitude_of_fits p int8 N hfit,
    to_string_t_eq p fuel int8 N base hN hfit hb hb16 hf,
    to_string_eq p fuel int8 N base hN hfit hb hb16 hf, ?_⟩
  rw [to_string_eq p fuel int8 (-128) 16 (by decide) (by decide) (by decide) (by decide) hf]
  simp [signedNumeral, numeral, digitChar]

/-- Witness of C8: -128 in base 16 with overflow trapping. -/
theorem c8_int8_every_value_witness :
    int8.holds (-128) ∧ to_string .trap 65 int8 (-128) 16 = .ok (some ['-', '8', '0']) :=
  ⟨by decide,
    (c8_int8_every_value .trap 65 (-128) 16 (by decide) (by decide) (by decide)
      (by decide)).2.2.2.2.2⟩

/-- C9, as stated, fails: with base 0 the first `n /= base` divides by zero,
with base 1 the loop of the size lambda never ends, and with base 18 the value 17
indexes the literal past its end. -/
theorem c9_out_of_range_base_faults :
    (∀ fuel : Nat, to_string_t .trap (fuel + 1) int32 1 0 = .error .divByZero) ∧
    (∀ fuel : Nat, to_string_t .trap fuel int32 1 1 = .error .outOfFuel) ∧
    to_string_t .trap 65 int32 17 18 = .error .alphabetOutOfRange :=
  ⟨to_string_t_base_zero, to_string_t_base_one, rfl⟩

/-- C9, amended: for any base the value 0 is formatted without a division or
a lookup and leaves only the terminator; for a base of at least 17 and a value
whose negation fits, the size lambda divides by a nonzero base, terminates and
returns sign + digit count + 1, and the constructor completes with every lookup
among the 16 digit characters whenever every digit of the magnitude is below
16. -/
theorem c9_zero_and_large_base (p : Overflow) (fuel : Nat) (t : IntType) (N : Int)
    (base : Nat) (hN : t.holds N) (hfit : negationFits t N) (hb32 : base < 2 ^ 32)
    (hf : 64 < fuel) :
    to_string_t p fuel t 0 base = .ok ⟨[some (Char.ofNat 0)], 0⟩ ∧
    (17 ≤ base →
      buf_size p fuel t N base
        = .ok ((if 0 ≤ N then 1 else 2) + (Nat.digits base N.natAbs).length) ∧
      ((∀ d ∈ Nat.digits base N.natAbs, d < 16) →
        to_string_t p fuel t N base = .ok ⟨terminated (signedNumeral base N), 0⟩)) := by
  refine ⟨?_, fun hb => ⟨buf_size_eq p fuel t N base hN hfit (by omega) hb32 hf,
    fun hd => to_string_t_of_digits p fuel t N base hN hfit (by omega) hb32 hd hf⟩⟩
  obtain ⟨k, rfl⟩ : ∃ k, fuel = k + 1 := ⟨fuel - 1, by omega⟩
  exact to_string_t_zero p k t base

/-- Witness of C9 amended: 15 of type `int` in base 17. -/
theorem c9_zero_and_large_base_witness :
    int32.holds 15 ∧
    to_string_t .trap 65 int32 0 17 = .ok ⟨[some (Char.ofNat 0)], 0⟩ ∧
    (17 ≤ 17 →
      buf_size .trap 65 int32 15 17
        = .ok ((if (0 : Int) ≤ 15 then 1 else 2) + (Nat.digits 17 (15 : Int).natAbs).length) ∧
      ((∀ d ∈ Nat.digits 17 (15 : Int).natAbs, d < 16) →
        to_string_t .trap 65 int32 15 17 = .ok ⟨terminated (signedNumeral 17 15), 0⟩)) :=
  ⟨by decide,
    c9_zero_and_large_base .trap 65 int32 15 17 (by decide) (by decide) (by decide)
      (by decide)⟩

/-- C10: the claim is that, with a wrapping negation, the most negative value
of every signed width is rendered as `'-'` and the digits of `2 ^ (w - 1)` in a
buffer of matching size.  That holds for 8, 16 and 32 bits (the first two negate
in `int` without overflow, the third divides in `unsigned int`), and the size is
right for 64 bits, but for 64 bits the division is signed, the remainder is
negative and the lookup `[n % base]` faults for each of the fifteen bases. -/
theorem c10_most_negative_by_width :
    (∀ b : Fin 15, to_string_t .wrap 65 int8 (-128) (b.val + 2)
      = .ok ⟨terminated ('-' :: numeral (b.val + 2) 128), 0⟩) ∧
    (∀ b : Fin 15, to_string_t .wrap 65 int16 (-32768) (b.val + 2)
      = .ok ⟨terminated ('-' :: numeral (b.val + 2) 32768), 0⟩) ∧
    (∀ b : Fin 15, to_string_t .wrap 65 int32 (-2147483648) (b.val + 2)
      = .ok ⟨terminated ('-' :: numeral (b.val + 2) 2147483648), 0⟩) ∧
    (∀ b : Fin 15, buf_size .wrap 65 int32 (-2147483648) (b.val + 2)
      = .ok (('-' :: numeral (b.val + 2) 2147483648).length + 1)) ∧
    (∀ b : Fin 15, buf_size .wrap 65 int64 (-9223372036854775808) (b.val + 2)
      = .ok (('-' :: numeral (b.val + 2) 9223372036854775808).length + 1)) ∧
    (∀ b : Fin 15, to_string_t .wrap 65 int64 (-9223372036854775808) (b.val + 2)
      = .error .alphabetOutOfRange) ∧
    (∀ (fuel : Nat) (b : Fin 15),
      ∃ e, to_string_t .wrap fuel int64 (-9223372036854775808) (b.val + 2) = .error e) := by
  refine ⟨?_, ?_, to_string_t_int32_min, buf_size_int32_min, buf_size_int64_min,
    to_string_t_int64_min, ?_⟩
  · intro b
    have hb := b.isLt
    rw [to_string_t_eq .wrap 65 int8 (-128) (b.val + 2) (by decide) (by decide) (by omega)
      (by omega) (by decide)]
    simp [signedNumeral]
  · intro b
    have hb := b.isLt
    rw [to_string_t_eq .wrap 65 int16 (-32768) (b.val + 2) (by decide) (by decide) (by omega)
      (by omega) (by decide)]
    simp [signedNumeral]
  · intro fuel b
    have hb := b.isLt
    exact most_negative_int64_faults .wrap fuel (b.val + 2) (by omega) (by omega)

/-- C11: the claim is that for every value the constructor stores once at
each offset `capacity - 1`, ..., `0` and leaves no byte unwritten.  For the most
negative `long long` the constructor faults whatever the overflowing negation
does: with the language rule nothing is stored, and with a wrapping negation the
size is 21 and the only store is the terminator at offset 20. -/
theorem c11_most_negative_leaves_bytes_unwritten :
    int64.holds (-9223372036854775808) ∧
    (∀ (p : Overflow) (fuel : Nat),
      ∃ e, (to_string_t_trace p fuel int64 (-9223372036854775808) 10).2 = .error e) ∧
    writeOffsets (to_string_t_trace .trap 65 int64 (-9223372036854775808) 10).1 = [] ∧
    buf_size .wrap 65 int64 (-9223372036854775808) 10 = .ok 21 ∧
    writeOffsets (to_string_t_trace .wrap 65 int64 (-9223372036854775808) 10).1 = [20] := by
  refine ⟨by decide, ?_, rfl, rfl, rfl⟩
  intro p fuel
  rw [to_string_t_trace_snd]
  exact most_negative_int64_faults p fuel 10 (by norm_num) (by norm_num)

/-- C12: the claim is that for every representable value both division loops
run to `n = 0` in as many iterations as the magnitude has digits.  For the most
negative `long long` in base 10 (19 digits) the language rule stops at the
initialiser `-N`, so no loop runs; with a wrapping negation the size loop divides
19 times, but the fill loop faults at its first subscript, -8, before any
division, whatever the fuel. -/
theorem c12_most_negative_loops_do_not_complete :
    int64.holds (-9223372036854775808) ∧
    (∀ fuel : Nat, buf_size_trace .trap fuel int64 (-9223372036854775808) 10
      = ([], .error .signedOverflow)) ∧
    (divisions (buf_size_trace .wrap 65 int64 (-9223372036854775808) 10).1).length = 19 ∧
    (∀ (fuel : Nat) (s : Cursor),
      ∃ e, (fillLoopT int64 10 fuel (-9223372036854775808) s).2 = .error e) ∧
    fillLoopT int64 10 65 (-9223372036854775808)
        ⟨List.replicate 20 none ++ [some (Char.ofNat 0)], 20⟩
      = ([Event.lookup (-8)], .error .alphabetOutOfRange) := by
  refine ⟨by decide, ?_, rfl, ?_, rfl⟩
  · intro fuel
    have hm : magnitude .trap int64 (-9223372036854775808) = .error .signedOverflow := rfl
    simp only [buf_size_trace, hm]
  · intro fuel s
    rw [fillLoopT_snd]
    exact fillLoop_int64_neg 10 (by norm_num) (by norm_num) fuel 9223372036854775808 s
      (by norm_num) (by norm_num)

/-- C13: for every representable value and every base from 2 to 16, with
fuel for 64 digits, every subscript used on the literal by the constructor lies
in `[0, b - 1]`; every text seen through the pointer conversion is the optional
`'-'` followed by characters that are among the first `b` characters of the
literal, none a lowercase letter and none the NUL that ends the literal; and
that text is produced whenever the negation `-N` is evaluated without
overflow.  An overflowing negation is rejected before any subscript is
evaluated. -/
theorem c13_subscripts_within_base (fuel : Nat) (t : IntType) (N : Int) (base : Nat)
    (hN : t.holds N) (hb : 2 ≤ base) (hb16 : base ≤ 16) (hf : 64 < fuel) :
    (∀ i ∈ lookups (to_string_t_trace .trap fuel t N base).1, 0 ≤ i ∧ i < (base : Int)) ∧
    (∀ text, to_string .trap fuel t N base = .ok (some text) →
      ∃ body, text = (if N < 0 then ['-'] else []) ++ body ∧
        ∀ c ∈ body, c ∈ alphabet.take base ∧ c.isLower = false ∧ c ≠ Char.ofNat 0) ∧
    (negationFits t N → ∃ text, to_string .trap fuel t N base = .ok (some text)) := by
  by_cases hfit : negationFits t N
  · obtain ⟨body, hbody, hchars⟩ :=
      text_digits_of_base .trap fuel t N base hN hfit hb hb16 hf
    refine ⟨(to_string_t_trace_steps .trap fuel t N base hN hfit hb hb16 hf).2.1, ?_,
      fun _ => ⟨_, hbody⟩⟩
    intro text htext
    rw [hbody] at htext
    have he : (if N < 0 then ['-'] else []) ++ body = text :=
      Option.some.inj (Except.ok.inj htext)
    exact ⟨body, he.symm, hchars⟩
  · have herr : to_string_t .trap fuel t N base = .error .signedOverflow := by
      rcases not_fits_cases t N hN hfit with ⟨rfl, rfl⟩ | ⟨rfl, rfl⟩
      · exact most_negative_int32_traps fuel base
      · exact most_negative_int64_traps fuel base
    have htr : (to_string_t_trace .trap fuel t N base).1 = [] := by
      rcases not_fits_cases t N hN hfit with ⟨rfl, rfl⟩ | ⟨rfl, rfl⟩
      · have hm : magnitude .trap int32 (-2147483648) = .error .signedOverflow := rfl
        simp only [to_string_t_trace, buf_size, hm]
      · have hm : magnitude .trap int64 (-9223372036854775808) = .error .signedOverflow := rfl
        simp only [to_string_t_trace, buf_size, hm]
    refine ⟨?_, ?_, fun h => absurd h hfit⟩
    · intro i hi
      rw [htr] at hi
      simp [lookups] at hi
    · intro text htext
      simp [to_string, herr] at htext

/-- Witness of C13: 255 of type `int` in base 16, where the two subscripts
are 15 and the text is "FF". -/
theorem c13_subscripts_within_base_witness :
    int32.holds 255 ∧
    lookups (to_string_t_trace .trap 65 int32 255 16).1 = [15, 15] ∧
    to_string .trap 65 int32 255 16 = .ok (some ['F', 'F']) ∧
    (∀ i ∈ lookups (to_string_t_trace .trap 65 int32 255 16).1, 0 ≤ i ∧ i < ((16 : Nat) : Int)) ∧
    (∀ text, to_string .trap 65 int32 255 16 = .ok (some text) →
      ∃ body, text = (if (255 : Int) < 0 then ['-'] else []) ++ body ∧
        ∀ c ∈ body, c ∈ alphabet.take 16 ∧ c.isLower = false ∧ c ≠ Char.ofNat 0) ∧
    ∃ text, to_string .trap 65 int32 255 16 = .ok (some text) :=
  ⟨by decide, rfl, rfl,
    (c13_subscripts_within_base 65 int32 255 16 (by decide) (by decide) (by decide)
      (by decide)).1,
    (c13_subscripts_within_base 65 int32 255 16 (by decide) (by decide) (by decide)
      (by decide)).2.1,
    (c13_subscripts_within_base 65 int32 255 16 (by decide) (by decide) (by decide)
      (by decide)).2.2 (by decide)⟩

/-- C14: base 2 is the worst case.  For every representable value of a type of
`w` bits and every base from 2 to 16, with fuel for 64 digits: whenever the size
lambda returns a capacity for the base and one for base 2, the first is at most
the second and the second is at most `w + 2`; and both capacities are returned
for every value when the negation wraps, and for every value whose negation is
evaluated without overflow under the language rule. -/
theorem c14_base_two_is_worst_case (p : Overflow) (fuel : Nat) (t : IntType) (v : Int)
    (base : Nat) (hv : t.holds v) (hb : 2 ≤ base) (hb16 : base ≤ 16) (hf : 64 < fuel) :
    (∀ cb c2, buf_size p fuel t v base = .ok cb → buf_size p fuel t v 2 = .ok c2 →
      cb ≤ c2 ∧ c2 ≤ t.width.bits + 2) ∧
    ((p = .trap → negationFits t v) →
      ∃ cb c2, buf_size p fuel t v base = .ok cb ∧ buf_size p fuel t v 2 = .ok c2) := by
  have hsize : (p = .trap → negationFits t v) → ∀ b, 2 ≤ b → b ≤ 16 →
      buf_size p fuel t v b
        = .ok ((if 0 ≤ v then 1 else 2) + (Nat.digits b v.natAbs).length) := by
    intro hp b h2 h16
    cases p with
    | trap => exact buf_size_eq .trap fuel t v b hv (hp rfl) h2 (by omega) hf
    | wrap => exact buf_size_wrap_eq fuel t v b hv h2 (by omega) hf
  refine ⟨?_, fun hp => ⟨_, _, hsize hp base hb hb16, hsize hp 2 (by norm_num) (by norm_num)⟩⟩
  intro cb c2 h1 h2
  by_cases hp : p = .trap → negationFits t v
  · rw [hsize hp base hb hb16] at h1
    rw [hsize hp 2 (by norm_num) (by norm_num)] at h2
    have e1 := Except.ok.inj h1
    have e2 := Except.ok.inj h2
    have := digits_length_le_binary base v.natAbs hb
    have := digits_length_le 2 v.natAbs t.width.bits (by norm_num) (natAbs_lt_pow t v hv)
    subst e1 e2
    constructor <;> split <;> omega
  · exfalso
    have hp' : p = .trap ∧ ¬ negationFits t v := by
      by_cases hq : p = .trap
      · exact ⟨hq, fun hfit => hp (fun _ => hfit)⟩
      · exact absurd (fun h => absurd h hq) hp
    obtain ⟨rfl, hfit⟩ := hp'
    rcases not_fits_cases t v hv hfit with ⟨rfl, rfl⟩ | ⟨rfl, rfl⟩
    · have hm : magnitude .trap int32 (-2147483648) = .error .signedOverflow := rfl
      simp [buf_size, hm] at h1
    · have hm : magnitude .trap int64 (-9223372036854775808) = .error .signedOverflow := rfl
      simp [buf_size, hm] at h1

/-- Witness of C14: -2147483647 of type `int` in base 10 under the language
rule, where the capacities are 12 and 33 and `w + 2` is 34. -/
theorem c14_base_two_is_worst_case_witness :
    int32.holds (-2147483647) ∧ negationFits int32 (-2147483647) ∧
    buf_size .trap 65 int32 (-2147483647) 10 = .ok 12 ∧
    buf_size .trap 65 int32 (-2147483647) 2 = .ok 33 ∧
    (∀ cb c2, buf_size .trap 65 int32 (-2147483647) 10 = .ok cb →
      buf_size .trap 65 int32 (-2147483647) 2 = .ok c2 →
      cb ≤ c2 ∧ c2 ≤ int32.width.bits + 2) ∧
    ∃ cb c2, buf_size .trap 65 int32 (-2147483647) 10 = .ok cb ∧
      buf_size .trap 65 int32 (-2147483647) 2 = .ok c2 :=
  ⟨by decide, by decide, rfl, rfl,
    (c14_base_two_is_worst_case .trap 65 int32 (-2147483647) 10 (by decide) (by decide)
      (by decide) (by decide)).1,
    (c14_base_two_is_worst_case .trap 65 int32 (-2147483647) 10 (by decide) (by decide)
      (by decide) (by decide)).2 (fun _ => by decide)⟩

/-- C15: the claim is that the text of every nonzero value starts, after the
optional sign, with a digit other than `'0'`.  For the most negative `long long`
(any treatment of the overflow, any fuel) and for the most negative `int` under
the language rule there is no text, hence no first digit. -/
theorem c15_most_negative_has_no_first_digit :
    int64.holds (-9223372036854775808) ∧
    (∀ (p : Overflow) (fuel : Nat),
      ∃ e, to_string p fuel int64 (-9223372036854775808) 8 = .error e) ∧
    int32.holds (-2147483648) ∧
    (∀ fuel : Nat, to_string .trap fuel int32 (-2147483648) 8 = .error .signedOverflow) := by
  refine ⟨by decide, ?_, by decide, ?_⟩
  · intro p fuel
    obtain ⟨e, he⟩ := most_negative_int64_faults p fuel 8 (by norm_num) (by norm_num)
    exact ⟨e, by simp only [to_string, he]⟩
  · intro fuel
    simp only [to_string, most_negative_int32_traps]

/-- C16: injectivity.  For a base from 2 to 16 and two different representable
values of one type, neither being the most negative value of a signed type, both
texts are produced (with fuel for 64 digits) and they differ. -/
theorem c16_distinct_values_distinct_texts (p : Overflow) (fuel : Nat) (t : IntType)
    (v w : Int) (base : Nat) (hv : t.holds v) (hw : t.holds w)
    (hvmin : t.isSigned = true → v ≠ t.minVal) (hwmin : t.isSigned = true → w ≠ t.minVal)
    (hne : v ≠ w) (hb : 2 ≤ base) (hb16 : base ≤ 16) (hf : 64 < fuel) :
    ∃ sv sw, to_string p fuel t v base = .ok (some sv) ∧
      to_string p fuel t w base = .ok (some sw) ∧ sv ≠ sw :=
  ⟨signedNumeral base v, signedNumeral base w,
    to_string_eq p fuel t v base hv (fits_of_ne_min t v hv hvmin) hb hb16 hf,
    to_string_eq p fuel t w base hw (fits_of_ne_min t w hw hwmin) hb hb16 hf,
    fun h => hne (signedNumeral_injective base hb hb16 v w h)⟩

/-- Witness of C16: 0 and -7 of type `int` in base 10. -/
theorem c16_distinct_values_distinct_texts_witness :
    int32.holds 0 ∧ int32.holds (-7) ∧
    ∃ sv sw, to_string .trap 65 int32 0 10 = .ok (some sv) ∧
      to_string .trap 65 int32 (-7) 10 = .ok (some sw) ∧ sv ≠ sw :=
  ⟨by decide, by decide,
    c16_distinct_values_distinct_texts .trap 65 int32 0 (-7) 10 (by decide) (by decide)
      (by decide) (by decide) (by decide) (by decide) (by decide) (by decide)⟩

end ConstexprToString
